import Mathlib

/-!
# Verification of the 8-puzzle A* solver

Shallow embedding of `src/Eight_Puzzle_Problem.py` and proofs about it.

Modelling conventions:
* a Python grid (list of lists of ints) is a `Grid := List (List Nat)`;
* Python's `heapq` module (imported by the source) is embedded by the
  exact CPython array algorithms for `heappush`/`heappop` (with
  `_siftdown`/`_siftup`), specialised to comparison by a numeric key,
  matching `PuzzleNode.__lt__` which compares `g + h`;
* `get_blank_position` returns `Option (Nat × Nat)`: the Python function
  returns `None` when no cell holds 0 (the loop falls through);
* the unbounded `while open_list:` loop is embedded with explicit fuel:
  `solveLoop fuel st = none` means the fuel ran out, `some none` mirrors
  the Python `return None` ("no solution"), `some (some p)` mirrors
  returning the reconstructed path `p`.
-/

/-- A puzzle grid, mirroring the Python list-of-lists representation. -/
abbrev Grid : Type := List (List Nat)

/-- Cell access `state[i][j]`. Out-of-range reads return the junk value 9
(Python would raise; all theorems below only evaluate in-range cells). -/
def cell (s : Grid) (i j : Nat) : Nat :=
  (s.getD i []).getD j 9

/-- `state[i][j] = v` on row `i`, column `j`. -/
def setCell (s : Grid) (i j v : Nat) : Grid :=
  s.set i ((s.getD i []).set j v)

/-- Embeds `manhattan_distance` (lines 28-41 of the source): the per-cell
term for value `v` at `(i, j)`, with target `divmod(v - 1, 3)`.
The blank (`v = 0`) contributes 0, mirroring the `if state[i][j] != 0` guard. -/
def mdTerm (v i j : Nat) : Nat :=
  if v = 0 then 0
  else Int.natAbs ((((v - 1) / 3 : Nat) : Int) - (i : Int)) +
       Int.natAbs ((((v - 1) % 3 : Nat) : Int) - (j : Int))

/-- Embeds `manhattan_distance(state)`: sum of `mdTerm` over the 3x3 cells. -/
def manhattan_distance (s : Grid) : Nat :=
  (List.range 3).foldl
    (fun acc i => (List.range 3).foldl
      (fun acc2 j => acc2 + mdTerm (cell s i j) i j) acc) 0

/-- Embeds `get_blank_position(state)` (lines 43-53): first `(i, j)` with
`state[i][j] == 0` in row-major order; `none` when there is no blank,
mirroring the Python fall-through returning `None`. -/
def get_blank_position (s : Grid) : Option (Nat × Nat) :=
  (List.range 3).findSome? fun i =>
    (List.range 3).findSome? fun j =>
      if cell s i j = 0 then some (i, j) else none

/-- The move list of `get_neighbors`: down, up, right, left, in source order. -/
def moves : List (Int × Int) := [(1, 0), (-1, 0), (0, 1), (0, -1)]

/-- One swap step of `get_neighbors`: the deep-copied grid with
`new_state[i][j], new_state[ni][nj]` swapped (both right-hand sides read
the original grid, as in the simultaneous Python assignment). -/
def swapCells (s : Grid) (i j ni nj : Nat) : Grid :=
  setCell (setCell s i j (cell s ni nj)) ni nj (cell s i j)

/-- Embeds `get_neighbors(state)` (lines 55-71). When the grid has no blank
the Python code raises a `TypeError` unpacking `None`; that case is embedded
as the empty list and never reached by the theorems below (they require a
blank to exist). -/
def get_neighbors (s : Grid) : List Grid :=
  match get_blank_position s with
  | none => []
  | some (i, j) =>
    moves.foldl
      (fun acc m =>
        let ni : Int := (i : Int) + m.1
        let nj : Int := (j : Int) + m.2
        if 0 ≤ ni ∧ ni < 3 ∧ 0 ≤ nj ∧ nj < 3 then
          acc ++ [swapCells s i j ni.toNat nj.toNat]
        else acc)
      []

/-- Embeds the `PuzzleNode` class: a state, a parent link (`root` stands for
`parent=None`) and the costs `g` and `h`. -/
inductive PuzzleNode : Type where
  | root (state : Grid) (g h : Nat)
  | child (state : Grid) (parent : PuzzleNode) (g h : Nat)
deriving DecidableEq, Inhabited

/-- `self.state`. -/
def PuzzleNode.state : PuzzleNode → Grid
  | .root s _ _ => s
  | .child s _ _ _ => s

/-- `self.g`. -/
def PuzzleNode.g : PuzzleNode → Nat
  | .root _ g _ => g
  | .child _ _ g _ => g

/-- `self.h`. -/
def PuzzleNode.h : PuzzleNode → Nat
  | .root _ _ h => h
  | .child _ _ _ h => h

/-- The ordering key of `PuzzleNode.__lt__`: nodes compare by `g + h`. -/
def nodeKey (n : PuzzleNode) : Nat := n.g + n.h

/-! ## The CPython `heapq` algorithms

`heappush`/`heappop` below are the exact array algorithms of CPython's
`heapq` module (`_siftdown` and `_siftup` with the bottom-up final
`_siftdown` call), acting on a `List α` and comparing elements by
`key : α → Nat`, which is how the source compares `PuzzleNode`s. -/

/-- CPython `heapq._siftdown(heap, startpos, pos)` with `newitem` the value
conceptually stored at `pos`: bubble `newitem` up toward `startpos`. The
loop is expressed with explicit fuel (a structural recursion the kernel can
unfold); `siftdown` below runs it with fuel `pos`, which always suffices
because the position strictly decreases on every iteration, and on
exhausted fuel the position is `0`, where the loop would stop anyway. -/
def siftdownFuel {α : Type} [Inhabited α] (key : α → Nat) (startpos : Nat)
    (newitem : α) (heap : List α) (pos : Nat) : Nat → List α
  | 0 => heap.set pos newitem
  | fuel + 1 =>
    if startpos < pos then
      if key newitem < key (heap.getD ((pos - 1) / 2) default) then
        siftdownFuel key startpos newitem
          (heap.set pos (heap.getD ((pos - 1) / 2) default)) ((pos - 1) / 2) fuel
      else
        heap.set pos newitem
    else
      heap.set pos newitem

/-- CPython `heapq._siftdown(heap, startpos, pos)`. -/
def siftdown {α : Type} [Inhabited α] (key : α → Nat) (startpos : Nat)
    (newitem : α) (heap : List α) (pos : Nat) : List α :=
  siftdownFuel key startpos newitem heap pos pos

/-- CPython `heapq.heappush(heap, item)`. -/
def heappush {α : Type} [Inhabited α] (key : α → Nat) (heap : List α)
    (item : α) : List α :=
  siftdown key 0 item (heap ++ [item]) heap.length

/-- CPython `heapq._siftup(heap, pos)` (with `endpos`, `startpos`, `newitem`
made explicit): move the smaller child up until reaching a leaf, then place
`newitem` by `_siftdown`. The child choice mirrors
`if rightpos < endpos and not heap[childpos] < heap[rightpos]`.
The loop is again expressed with explicit fuel; `siftup` runs it with fuel
`endpos - pos`, which always suffices because the position strictly
increases toward `endpos`, and on exhausted fuel the position has no child
below `endpos`, which is the stopping condition anyway. -/
def siftupFuel {α : Type} [Inhabited α] (key : α → Nat) (endpos startpos : Nat)
    (newitem : α) (heap : List α) (pos : Nat) : Nat → List α
  | 0 => siftdown key startpos newitem heap pos
  | fuel + 1 =>
    if 2 * pos + 1 < endpos then
      if 2 * pos + 2 < endpos ∧
          ¬ key (heap.getD (2 * pos + 1) default) <
            key (heap.getD (2 * pos + 2) default) then
        siftupFuel key endpos startpos newitem
          (heap.set pos (heap.getD (2 * pos + 2) default)) (2 * pos + 2) fuel
      else
        siftupFuel key endpos startpos newitem
          (heap.set pos (heap.getD (2 * pos + 1) default)) (2 * pos + 1) fuel
    else
      siftdown key startpos newitem heap pos

/-- CPython `heapq._siftup(heap, pos)`. -/
def siftup {α : Type} [Inhabited α] (key : α → Nat) (endpos startpos : Nat)
    (newitem : α) (heap : List α) (pos : Nat) : List α :=
  siftupFuel key endpos startpos newitem heap pos (endpos - pos)

/-- CPython `heapq.heappop(heap)`, returning the popped item and the
remaining heap; `none` on the empty heap (Python raises `IndexError`,
which the source never triggers thanks to the `while open_list:` guard). -/
def heappop {α : Type} [Inhabited α] (key : α → Nat) (heap : List α) :
    Option (α × List α) :=
  match heap with
  | [] => none
  | x :: xs =>
    match (x :: xs : List α).dropLast with
    | [] => some ((x :: xs : List α).getLast (by simp), [])
    | y :: ys =>
      some (y, siftup key (y :: ys : List α).length 0
        ((x :: xs : List α).getLast (by simp))
        ((y :: ys : List α).set 0 ((x :: xs : List α).getLast (by simp))) 0)

/-! ## The search (lines 73-113) -/

/-- The module-level `goal_state` (lines 109-113). -/
def goal_state : Grid := [[2, 3, 4], [7, 0, 1], [8, 5, 6]]

/-- The module-level `initial_state` (lines 103-107). -/
def initial_state : Grid := [[2, 1, 7], [8, 0, 6], [3, 4, 5]]

/-- Path reconstruction (lines 88-92): collect states along the parent
chain and reverse, so the root state comes first. -/
def pathOf : PuzzleNode → List Grid
  | .root s _ _ => [s]
  | .child s p _ _ => pathOf p ++ [s]

/-- `closed_list.add`: Python set insertion (idempotent). -/
def insertG (s : Grid) (l : List Grid) : List Grid :=
  if s ∈ l then l else s :: l

/-- The mutable state of the search loop: `open_list` and `closed_list`. -/
structure SState : Type where
  openl : List PuzzleNode
  closed : List Grid
deriving DecidableEq

/-- Outcome of one iteration of the `while open_list:` loop. -/
inductive StepOut : Type where
  | emptyOpen
  | foundPath (p : List Grid)
  | next (st : SState)
deriving DecidableEq

/-- One iteration of the search loop (lines 84-99): pop the minimum node;
return the reconstructed path if its state equals `goal_state`; otherwise
add the state to the closed set and push every neighbor whose state is not
in the (updated) closed set. -/
def aStarStep (st : SState) : StepOut :=
  match heappop nodeKey st.openl with
  | none => .emptyOpen
  | some (cur, rest) =>
    if cur.state = goal_state then
      .foundPath (pathOf cur)
    else
      let closed2 := insertG cur.state st.closed
      let opened := (get_neighbors cur.state).foldl
        (fun o ns =>
          if ns ∈ closed2 then o
          else heappush nodeKey o
            (PuzzleNode.child ns cur (cur.g + 1) (manhattan_distance ns)))
        rest
      .next ⟨opened, closed2⟩

/-- The search loop with explicit fuel. `none` = fuel exhausted;
`some none` = Python `return None` (open list emptied);
`some (some p)` = Python returning the path `p`. -/
def solveLoop : Nat → SState → Option (Option (List Grid))
  | 0, _ => none
  | fuel + 1, st =>
    match aStarStep st with
    | .emptyOpen => some none
    | .foundPath p => some (some p)
    | .next st2 => solveLoop fuel st2

/-- The initial loop state of `solve_puzzle` (lines 80-82): the open list
holds the root node with `g = 0`, `h = manhattan_distance(initial)`. -/
def startState (init : Grid) : SState :=
  ⟨[PuzzleNode.root init 0 (manhattan_distance init)], []⟩

/-- Embeds `solve_puzzle(initial_state)` (lines 73-101), with fuel. -/
def solve_puzzle (init : Grid) (fuel : Nat) : Option (Option (List Grid)) :=
  solveLoop fuel (startState init)

/-! ## Spec-side definitions

These definitions follow the specification's words, for comparison with the
embedded source functions. -/

/-- The standard 8-puzzle goal layout: value `v` at row `(v-1)/3`,
column `(v-1)%3`, blank last. `manhattan_distance` measures distance to
this configuration (claim C10), not to `goal_state`. -/
def stdGoal : Grid := [[1, 2, 3], [4, 5, 6], [7, 8, 0]]

/-- A well-shaped grid: 3 rows of 3 cells. -/
def Shaped (g : Grid) : Prop :=
  g.length = 3 ∧ ∀ r ∈ g, r.length = 3

/-- A valid grid per the spec: 3x3 and the nine cells are a permutation
of 0..8. -/
def Valid (g : Grid) : Prop :=
  Shaped g ∧ g.flatten.Perm (List.range 9)

instance : DecidablePred Shaped := fun g => by
  unfold Shaped
  infer_instance

instance : DecidablePred Valid := fun g => by
  unfold Valid
  infer_instance

/-- Modelled from the spec: the goal position of value `v`, "determined by
scanning the fixed goal grid for `v`" (spec 4.2); row-major scan of the
target grid. -/
def findPos (t : Grid) (v : Nat) : Option (Nat × Nat) :=
  (List.range 3).findSome? fun i =>
    (List.range 3).findSome? fun j =>
      if cell t i j = v then some (i, j) else none

/-- Modelled from the spec: the per-cell distance of value `v` at `(i, j)`
to its position in the target grid `t`. The blank contributes 0. -/
def mdToTerm (t : Grid) (v i j : Nat) : Nat :=
  if v = 0 then 0
  else
    match findPos t v with
    | some (x, y) =>
      Int.natAbs ((x : Int) - (i : Int)) + Int.natAbs ((y : Int) - (j : Int))
    | none => 0

/-- Modelled from the spec: `manhattanDistance` against an explicit target
grid — "sum over all non-blank cells of the Manhattan (L1) distance between
the cell's current (row, col) and its goal (row, col)", the goal position
"determined by scanning the fixed goal grid" (spec 4.2). -/
def mdTo (t : Grid) (s : Grid) : Nat :=
  (List.range 3).foldl
    (fun acc i => (List.range 3).foldl
      (fun acc2 j => acc2 + mdToTerm t (cell s i j) i j) acc) 0

/-- Cell `(i', j')` is axis-adjacent to cell `(i, j)`. -/
def adjacentPos (i j i2 j2 : Nat) : Prop :=
  (i = i2 ∧ (j2 = j + 1 ∨ j = j2 + 1)) ∨ (j = j2 ∧ (i2 = i + 1 ∨ i = i2 + 1))

instance (i j i2 j2 : Nat) : Decidable (adjacentPos i j i2 j2) := by
  unfold adjacentPos
  infer_instance

/-- Spec-language legal move (spec 8): `b` differs from `a` by exactly one
swap of the blank tile with an axis-adjacent tile. -/
def legalMove (a b : Grid) : Prop :=
  ∃ i j i2 j2, get_blank_position a = some (i, j) ∧
    i2 < 3 ∧ j2 < 3 ∧ adjacentPos i j i2 j2 ∧ b = swapCells a i j i2 j2

/-- A solution path: consecutive legal moves from `a` to `b` inclusive. -/
def SolPath (a b : Grid) (p : List Grid) : Prop :=
  p.head? = some a ∧ p.getLast? = some b ∧ List.Chain' legalMove p

/-- The instance is solvable: some legal path reaches `goal_state`. -/
def Solvable (a : Grid) : Prop :=
  ∃ p, SolPath a goal_state p

/-- Iterating the search loop body `n` times; `none` when the loop stopped
(success or exhaustion) before completing `n` iterations. -/
def stepN : Nat → SState → Option SState
  | 0, st => some st
  | k + 1, st =>
    match aStarStep st with
    | .next st2 => stepN k st2
    | _ => none

/-! ## Heap lemmas: permutation content of push and pop -/

section HeapLemmas

variable {α : Type} [Inhabited α] {key : α → Nat}

/-- Setting an in-range index to its own value changes nothing. -/
theorem set_self_eq (l : List α) (i : Nat) (h : i < l.length) :
    l.set i (l.getD i default) = l := by
  rw [List.getD_eq_getElem _ _ h]
  apply List.ext_getElem (by simp)
  intro n h1 h2
  by_cases hni : n = i
  · subst hni
    simp
  · rw [List.getElem_set_ne (fun e => hni e.symm)]

/-- `set` is, up to permutation, cons plus erase. -/
theorem set_perm (l : List α) (pos : Nat) (a : α) (h : pos < l.length) :
    (l.set pos a).Perm (a :: l.eraseIdx pos) := by
  rw [List.set_eq_take_append_cons_drop, if_pos h, List.eraseIdx_eq_take_drop_succ]
  exact List.perm_middle

/-- Moving the element at `q` over the hole at `p` keeps the multiset of
the non-hole elements. -/
theorem erase_set_perm (l : List α) (p q : Nat) (hp : p < l.length)
    (hq : q < l.length) (hne : p ≠ q) :
    ((l.set p (l.getD q default)).eraseIdx q).Perm (l.eraseIdx p) := by
  have hq2 : q < (l.set p (l.getD q default)).length := by simpa using hq
  have hXq : (l.set p (l.getD q default)).getD q default = l.getD q default := by
    rw [List.getD_eq_getElem _ _ hq2, List.getElem_set_ne hne]
    exact (List.getD_eq_getElem _ _ hq).symm
  have h1 : (l.set p (l.getD q default)).set q (l.getD q default) =
      l.set p (l.getD q default) := by
    have h0 := set_self_eq (l.set p (l.getD q default)) q hq2
    rwa [hXq] at h0
  have h2 : ((l.set p (l.getD q default)).set q (l.getD q default)).Perm
      ((l.getD q default) :: (l.set p (l.getD q default)).eraseIdx q) :=
    set_perm _ _ _ hq2
  rw [h1] at h2
  have h3 : (l.set p (l.getD q default)).Perm
      ((l.getD q default) :: l.eraseIdx p) := set_perm _ _ _ hp
  have h4 : ((l.getD q default) :: (l.set p (l.getD q default)).eraseIdx q).Perm
      ((l.getD q default) :: l.eraseIdx p) := h2.symm.trans h3
  exact (List.perm_cons _).mp h4

/-- `siftdown` keeps length. -/
theorem siftdownFuel_length (key : α → Nat) (x : α) :
    ∀ fuel pos l, (siftdownFuel key 0 x l pos fuel).length = l.length := by
  intro fuel
  induction fuel with
  | zero =>
    intro pos l
    simp [siftdownFuel]
  | succ fuel ih =>
    intro pos l
    simp only [siftdownFuel]
    split
    · split
      · rw [ih]
        simp
      · simp
    · simp

/-- `siftdown` keeps length. -/
theorem siftdown_length (key : α → Nat) (x : α) :
    ∀ pos l, (siftdown key 0 x l pos).length = l.length := by
  intro pos l
  unfold siftdown
  exact siftdownFuel_length key x pos pos l

theorem siftdownFuel_perm (key : α → Nat) (x : α) :
    ∀ fuel pos l, pos ≤ fuel → pos < l.length →
      (siftdownFuel key 0 x l pos fuel).Perm (x :: l.eraseIdx pos) := by
  intro fuel
  induction fuel with
  | zero =>
    intro pos l hf hpos
    have hp : pos = 0 := by omega
    subst hp
    simp only [siftdownFuel]
    exact set_perm _ _ _ hpos
  | succ fuel ih =>
    intro pos l hf hpos
    simp only [siftdownFuel]
    split
    · split
      · refine ((ih ((pos - 1) / 2) _ (by
            have h1 : (pos - 1) / 2 ≤ pos - 1 := Nat.div_le_self _ _
            omega) (by
            have h1 : (pos - 1) / 2 ≤ pos - 1 := Nat.div_le_self _ _
            simp
            omega)).trans ?_)
        refine List.Perm.cons x ?_
        exact erase_set_perm l pos ((pos - 1) / 2) hpos (by
          have h1 : (pos - 1) / 2 ≤ pos - 1 := Nat.div_le_self _ _
          omega) (by
          have h1 : (pos - 1) / 2 ≤ pos - 1 := Nat.div_le_self _ _
          omega)
      · exact set_perm _ _ _ hpos
    · exact set_perm _ _ _ hpos

/-- `siftdown` is, up to permutation, placing the new item over the hole. -/
theorem siftdown_perm (key : α → Nat) (x : α) :
    ∀ pos l, pos < l.length →
      (siftdown key 0 x l pos).Perm (x :: l.eraseIdx pos) := by
  intro pos l hpos
  unfold siftdown
  exact siftdownFuel_perm key x pos pos l (le_refl pos) hpos

theorem siftupFuel_length (key : α → Nat) (x : α) :
    ∀ fuel endpos pos l,
      (siftupFuel key endpos 0 x l pos fuel).length = l.length := by
  intro fuel
  induction fuel with
  | zero =>
    intro endpos pos l
    simp only [siftupFuel]
    rw [siftdown_length]
  | succ fuel ih =>
    intro endpos pos l
    simp only [siftupFuel]
    split
    · split
      · rw [ih]
        simp
      · rw [ih]
        simp
    · rw [siftdown_length]

/-- `siftup` keeps length. -/
theorem siftup_length (key : α → Nat) (x : α) :
    ∀ n endpos pos l, endpos - pos ≤ n →
      (siftup key endpos 0 x l pos).length = l.length := by
  intro n endpos pos l hn
  unfold siftup
  exact siftupFuel_length key x (endpos - pos) endpos pos l

theorem siftupFuel_perm (key : α → Nat) (x : α) :
    ∀ fuel endpos pos l, endpos = l.length → pos < l.length →
      (siftupFuel key endpos 0 x l pos fuel).Perm (x :: l.eraseIdx pos) := by
  intro fuel
  induction fuel with
  | zero =>
    intro endpos pos l hend hpos
    simp only [siftupFuel]
    exact siftdown_perm key x pos l hpos
  | succ fuel ih =>
    intro endpos pos l hend hpos
    simp only [siftupFuel]
    split
    · rename_i hc
      split
      · rename_i hr
        refine ((ih endpos (2 * pos + 2) _ (by simpa using hend)
            (by simp; omega)).trans ?_)
        refine List.Perm.cons x ?_
        exact erase_set_perm l pos (2 * pos + 2) hpos (by omega) (by omega)
      · refine ((ih endpos (2 * pos + 1) _ (by simpa using hend)
            (by simp; omega)).trans ?_)
        refine List.Perm.cons x ?_
        exact erase_set_perm l pos (2 * pos + 1) hpos (by omega) (by omega)
    · exact siftdown_perm key x pos l hpos

/-- `siftup` is, up to permutation, placing the new item over the hole. -/
theorem siftup_perm (key : α → Nat) (x : α) :
    ∀ n endpos pos l, endpos = l.length → endpos - pos ≤ n → pos < l.length →
      (siftup key endpos 0 x l pos).Perm (x :: l.eraseIdx pos) := by
  intro n endpos pos l hend hn hpos
  unfold siftup
  exact siftupFuel_perm key x (endpos - pos) endpos pos l hend hpos

/-- Pushing is, up to permutation, consing. -/
theorem heappush_perm (key : α → Nat) (l : List α) (x : α) :
    (heappush key l x).Perm (x :: l) := by
  unfold heappush
  have h1 : l.length < (l ++ [x]).length := by simp
  refine (siftdown_perm key x l.length (l ++ [x]) h1).trans ?_
  refine List.Perm.cons x ?_
  rw [List.eraseIdx_eq_take_drop_succ]
  simp

/-- Popping is, up to permutation, removing the returned element. -/
theorem heappop_perm (key : α → Nat) (l : List α) (r : α) (l2 : List α)
    (h : heappop key l = some (r, l2)) : (r :: l2).Perm l := by
  match l with
  | [] => simp [heappop] at h
  | x :: xs =>
    rw [heappop] at h
    rcases hd : (x :: xs : List α).dropLast with _ | ⟨y, ys⟩
    · rw [hd] at h
      simp only [Option.some_inj, Prod.mk.injEq] at h
      have hxs : xs = [] := by
        cases xs with
        | nil => rfl
        | cons a as => simp [List.dropLast] at hd
      subst hxs
      obtain ⟨h1, h2⟩ := h
      subst h2
      simp only [List.getLast] at h1
      subst h1
      exact List.Perm.refl _
    · rw [hd] at h
      simp only [Option.some_inj, Prod.mk.injEq] at h
      obtain ⟨h1, h2⟩ := h
      subst h1
      subst h2
      have hlen : ((y :: ys : List α).set 0
          ((x :: xs : List α).getLast (by simp))).length = (y :: ys : List α).length := by
        simp
      have hperm := siftup_perm key ((x :: xs : List α).getLast (by simp))
        ((y :: ys : List α).length) ((y :: ys : List α).length) 0
        ((y :: ys : List α).set 0 ((x :: xs : List α).getLast (by simp)))
        (by simpa using hlen.symm) (le_refl _) (by simp)
      refine (List.Perm.cons _ hperm).trans ?_
      have hred : (((y :: ys : List α).set 0
          ((x :: xs : List α).getLast (by simp))).eraseIdx 0) = ys := rfl
      rw [hred]
      have hx : ((y :: ys) ++ [(x :: xs : List α).getLast (by simp)] : List α)
          = x :: xs := by
        conv_rhs => rw [← List.dropLast_append_getLast
          (l := (x :: xs : List α)) (by simp)]
        rw [hd]
      have p : ((y :: (x :: xs : List α).getLast (by simp) :: ys : List α)).Perm
          ((y :: ys) ++ [(x :: xs : List α).getLast (by simp)]) :=
        (List.Perm.cons y (List.perm_append_singleton _ _)).symm
      have q : (((y :: ys) ++ [(x :: xs : List α).getLast (by simp)] : List α)).Perm
          (x :: xs) := by
        rw [hx]
      exact p.trans q

/-- Membership after a push. -/
theorem mem_heappush (key : α → Nat) (l : List α) (x y : α) :
    y ∈ heappush key l x ↔ y = x ∨ y ∈ l := by
  rw [(heappush_perm key l x).mem_iff]
  simp

/-- Members after a pop were members before; the popped element too. -/
theorem heappop_mem (key : α → Nat) (l : List α) (r : α) (l2 : List α)
    (h : heappop key l = some (r, l2)) :
    r ∈ l ∧ ∀ y ∈ l2, y ∈ l := by
  have hp := heappop_perm key l r l2 h
  constructor
  · exact hp.mem_iff.mp (by simp)
  · intro y hy
    exact hp.mem_iff.mp (by simp [hy])

/-- `heappop` returns `none` exactly on the empty list. -/
theorem heappop_none (key : α → Nat) (l : List α) :
    heappop key l = none ↔ l = [] := by
  match l with
  | [] => simp [heappop]
  | x :: xs =>
    rw [heappop]
    rcases hd : (x :: xs : List α).dropLast with _ | ⟨y, ys⟩ <;> simp [hd]

end HeapLemmas

/-! ## Heap lemmas: the heap invariant and minimality of the popped element -/

section HeapInv

variable {α : Type} [Inhabited α]

/-- Index `j` is a child of index `i` in the implicit binary heap. -/
def childOf (i j : Nat) : Prop := j = 2 * i + 1 ∨ j = 2 * i + 2

/-- The binary-heap invariant: every parent key is at most its child key. -/
def heapInv (key : α → Nat) (l : List α) : Prop :=
  ∀ i j, j < l.length → childOf i j →
    key (l.getD i default) ≤ key (l.getD j default)

/-- In a heap, the root has the minimal key. -/
theorem heapInv_root_le {key : α → Nat} {l : List α} (h : heapInv key l) :
    ∀ j, j < l.length → key (l.getD 0 default) ≤ key (l.getD j default) := by
  intro j
  induction j using Nat.strong_induction_on with
  | _ j ih =>
    intro hj
    rcases Nat.eq_zero_or_pos j with hj0 | hj0
    · subst hj0
      exact le_refl _
    · have hc : childOf ((j - 1) / 2) j := by
        unfold childOf
        omega
      exact le_trans (ih ((j - 1) / 2) (by omega) (by omega)) (h _ _ hj hc)

/-- Invariant of the bubble-up phase: the hole is at `pos` and would hold
`x`; every parent-child pair not pointing into the hole is ordered; the
hole's virtual content dominates its former parent; and the hole's parent
is at most the hole's children ("skip" pairs over the hole). -/
def holeUp (key : α → Nat) (x : α) (l : List α) (pos : Nat) : Prop :=
  (∀ i j, j < l.length → childOf i j → i ≠ pos → j ≠ pos →
    key (l.getD i default) ≤ key (l.getD j default)) ∧
  (∀ c, c < l.length → childOf pos c → key x ≤ key (l.getD c default)) ∧
  (∀ c, c < l.length → childOf pos c → 0 < pos →
    key (l.getD ((pos - 1) / 2) default) ≤ key (l.getD c default))

/-- Writing `x` into the hole closes `holeUp` into the full heap
invariant, provided the hole's parent (when it exists) is at most `x`. -/
theorem holeUp_set_heapInv (key : α → Nat) (x : α) :
    ∀ pos l, pos < l.length → holeUp key x l pos →
      (0 < pos → ¬ key x < key (l.getD ((pos - 1) / 2) default)) →
      heapInv key (l.set pos x) := by
  intro pos l hpos hinv hstop
  obtain ⟨hpairs, hxc, hskip⟩ := hinv
  intro i j hj hc
  have hj2 : j < l.length := by simpa using hj
  have hgS : ∀ k, k < l.length → k ≠ pos →
      ((l.set pos x).getD k default) = l.getD k default := by
    intro k hk hkp
    rw [List.getD_eq_getElem _ _ (by simpa using hk),
      List.getElem_set_ne (fun e => hkp e.symm)]
    exact (List.getD_eq_getElem _ _ hk).symm
  have hgP : ((l.set pos x).getD pos default) = x := by
    rw [List.getD_eq_getElem _ _ (by simpa using hpos)]
    rw [List.getElem_set_self (by simpa using hpos)]
  by_cases hjq : j = pos
  · have hp0 : 0 < pos := by rcases hc with hc | hc <;> omega
    have hipp : i = (pos - 1) / 2 := by rcases hc with hc | hc <;> omega
    have hplen : (pos - 1) / 2 < l.length := by
      have := Nat.div_le_self (pos - 1) 2
      omega
    have hpne : (pos - 1) / 2 ≠ pos := by
      have := Nat.div_le_self (pos - 1) 2
      omega
    rw [hjq, hipp, hgP, hgS _ hplen hpne]
    have := hstop hp0
    omega
  · by_cases hiq : i = pos
    · subst hiq
      rw [hgP, hgS j hj2 hjq]
      exact hxc j hj2 hc
    · rw [hgS i (by
          have : i < j := by rcases hc with hc | hc <;> omega
          omega) hiq, hgS j hj2 hjq]
      exact hpairs i j hj2 hc hiq hjq

theorem siftdownFuel_heapInv (key : α → Nat) (x : α) :
    ∀ fuel pos l, pos ≤ fuel → pos < l.length → holeUp key x l pos →
      heapInv key (siftdownFuel key 0 x l pos fuel) := by
  intro fuel
  induction fuel with
  | zero =>
    intro pos l hf hpos hinv
    have hp : pos = 0 := by omega
    subst hp
    simp only [siftdownFuel]
    exact holeUp_set_heapInv key x 0 l hpos hinv (by omega)
  | succ fuel ih =>
    intro pos l hf hpos hinv
    obtain ⟨hpairs, hxc, hskip⟩ := hinv
    simp only [siftdownFuel]
    split
    · rename_i hp0
      split
      · rename_i hlt
        -- bubble up: the hole moves to the parent
        refine ih ((pos - 1) / 2) _ (by
          have := Nat.div_le_self (pos - 1) 2
          omega) (by
          simp only [List.length_set]
          have := Nat.div_le_self (pos - 1) 2
          omega) ?_
        set pp := (pos - 1) / 2 with hpp
        have hppPos : pp < pos := by
          have := Nat.div_le_self (pos - 1) 2
          omega
        have hppLen : pp < l.length := by omega
        have hgetSet : ∀ k, k < l.length → k ≠ pos →
            ((l.set pos (l.getD pp default)).getD k default) = l.getD k default := by
          intro k hk hkp
          rw [List.getD_eq_getElem _ _ (by simpa using hk),
            List.getElem_set_ne (fun e => hkp e.symm)]
          exact (List.getD_eq_getElem _ _ hk).symm
        have hgetPos : ((l.set pos (l.getD pp default)).getD pos default)
            = l.getD pp default := by
          rw [List.getD_eq_getElem _ _ (by simpa using hpos)]
          rw [List.getElem_set_self (by simpa using hpos)]
        have hchildpp : childOf pp pos := by
          unfold childOf
          omega
        refine ⟨?_, ?_, ?_⟩
        · -- ordered pairs avoiding the new hole pp
          intro i j hj hc hip hjp
          by_cases hjq : j = pos
          · -- j = pos: its parent is pp, excluded
            subst hjq
            have : i = pp := by
              rcases hc with hc | hc <;> omega
            exact absurd this hip
          · by_cases hiq : i = pos
            · -- i = pos: children of the old hole, use skip pairs
              subst hiq
              rw [hgetPos, hgetSet j (by simpa using hj) hjq]
              exact hskip j (by simpa using hj) hc (by omega)
            · rw [hgetSet i (by
                  have hij : i < j := by rcases hc with hc | hc <;> omega
                  have : j < l.length := by simpa using hj
                  omega) hiq,
                hgetSet j (by simpa using hj) hjq]
              exact hpairs i j (by simpa using hj) hc hiq hjq
        · -- x dominates children of the new hole pp
          intro c hc hcc
          by_cases hcq : c = pos
          · subst hcq
            rw [hgetPos]
            exact le_of_lt hlt
          · rw [hgetSet c (by simpa using hc) hcq]
            refine le_trans (le_of_lt hlt) ?_
            exact hpairs pp c (by simpa using hc) hcc (by omega) hcq
        · -- skip pairs over the new hole pp
          intro c hc hcc hpp0
          have hpppLen : (pp - 1) / 2 < l.length := by
            have := Nat.div_le_self (pp - 1) 2
            omega
          have hpppNe : (pp - 1) / 2 ≠ pos := by
            have := Nat.div_le_self (pp - 1) 2
            omega
          rw [hgetSet _ hpppLen hpppNe]
          have hparpp : childOf ((pp - 1) / 2) pp := by
            unfold childOf
            omega
          by_cases hcq : c = pos
          · subst hcq
            rw [hgetPos]
            exact hpairs _ pp hppLen hparpp hpppNe (by omega)
          · rw [hgetSet c (by simpa using hc) hcq]
            refine le_trans (hpairs _ pp hppLen hparpp hpppNe (by omega)) ?_
            exact hpairs pp c (by simpa using hc) hcc (by omega) hcq
      · rename_i hnlt
        -- stop: parent is at most x; place x at pos
        exact holeUp_set_heapInv key x pos l hpos ⟨hpairs, hxc, hskip⟩
          (fun _ => hnlt)
    · rename_i hp0
      -- pos = 0: hole at the root, place x there
      exact holeUp_set_heapInv key x pos l hpos ⟨hpairs, hxc, hskip⟩
        (fun h0 => absurd h0 hp0)

/-- `siftdown` restores the full heap invariant from `holeUp`. -/
theorem siftdown_heapInv (key : α → Nat) (x : α) :
    ∀ pos l, pos < l.length → holeUp key x l pos →
      heapInv key (siftdown key 0 x l pos) := by
  intro pos l hpos hinv
  unfold siftdown
  exact siftdownFuel_heapInv key x pos pos l (le_refl pos) hpos hinv

end HeapInv

section HeapInv2

variable {α : Type} [Inhabited α]

/-- Invariant of the descend phase of `_siftup`: the hole at `pos` will
eventually hold `x`; all ordered pairs avoid the hole; and the hole's
parent is at most the hole's children. -/
def holeDn (key : α → Nat) (x : α) (l : List α) (pos : Nat) : Prop :=
  (∀ i j, j < l.length → childOf i j → i ≠ pos → j ≠ pos →
    key (l.getD i default) ≤ key (l.getD j default)) ∧
  (∀ c, c < l.length → childOf pos c → 0 < pos →
    key (l.getD ((pos - 1) / 2) default) ≤ key (l.getD c default))

theorem siftupFuel_heapInv (key : α → Nat) (x : α) :
    ∀ fuel endpos pos l, endpos = l.length → endpos - pos ≤ fuel →
      pos < l.length → holeDn key x l pos →
      heapInv key (siftupFuel key endpos 0 x l pos fuel) := by
  intro fuel
  induction fuel with
  | zero =>
    intro endpos pos l hend hn hpos hinv
    simp only [siftupFuel]
    refine siftdown_heapInv key x pos l hpos ⟨hinv.1, ?_, hinv.2⟩
    intro c hc hcc
    rcases hcc with hcc | hcc <;> omega
  | succ fuel ih =>
    intro endpos pos l hend hn hpos hinv
    obtain ⟨hpairs, hskip⟩ := hinv
    simp only [siftupFuel]
    split
    · rename_i hc1
      have hgetSet : ∀ (cp k : Nat), k < l.length → k ≠ pos →
          ((l.set pos (l.getD cp default)).getD k default) = l.getD k default := by
        intro cp k hk hkp
        rw [List.getD_eq_getElem _ _ (by simpa using hk),
          List.getElem_set_ne (fun e => hkp e.symm)]
        exact (List.getD_eq_getElem _ _ hk).symm
      have hgetPos : ∀ cp : Nat, ((l.set pos (l.getD cp default)).getD pos default)
          = l.getD cp default := by
        intro cp
        rw [List.getD_eq_getElem _ _ (by simpa using hpos)]
        rw [List.getElem_set_self (by simpa using hpos)]
      split
      · rename_i hr
        -- the right child 2*pos+2 moves up; hole descends to 2*pos+2
        refine ih endpos (2 * pos + 2) _ (by simpa using hend) (by omega)
          (by simp; omega) ⟨?_, ?_⟩
        · intro i j hj hcij hicp hjcp
          have hj2 : j < l.length := by simpa using hj
          by_cases hjq : j = pos
          · have hp0 : 0 < pos := by rcases hcij with hcij | hcij <;> omega
            have hip : i = (pos - 1) / 2 := by rcases hcij with hcij | hcij <;> omega
            have hiLen : i < l.length := by
              have := Nat.div_le_self (pos - 1) 2
              omega
            rw [hjq, hgetPos, hgetSet _ i hiLen (by
              have := Nat.div_le_self (pos - 1) 2
              omega)]
            rw [hip]
            exact hskip (2 * pos + 2) (by omega) (by right; rfl) hp0
          · by_cases hiq : i = pos
            · have hjch : j = 2 * pos + 1 := by rcases hcij with hcij | hcij <;> omega
              rw [hiq, hgetPos, hgetSet _ j hj2 hjq, hjch]
              omega
            · rw [hgetSet _ i (by
                  have : i < j := by rcases hcij with hcij | hcij <;> omega
                  omega) hiq, hgetSet _ j hj2 hjq]
              exact hpairs i j hj2 hcij hiq hjq
        · intro c hcl hcc hc0
          have hcpar : (2 * pos + 2 - 1) / 2 = pos := by omega
          rw [hcpar, hgetPos, hgetSet _ c (by simpa using hcl) (by
            rcases hcc with hcc | hcc <;> omega)]
          exact hpairs (2 * pos + 2) c (by simpa using hcl) hcc (by omega) (by
            rcases hcc with hcc | hcc <;> omega)
      · rename_i hr
        -- the left child 2*pos+1 moves up; hole descends to 2*pos+1
        refine ih endpos (2 * pos + 1) _ (by simpa using hend) (by omega)
          (by simp; omega) ⟨?_, ?_⟩
        · intro i j hj hcij hicp hjcp
          have hj2 : j < l.length := by simpa using hj
          by_cases hjq : j = pos
          · have hp0 : 0 < pos := by rcases hcij with hcij | hcij <;> omega
            have hip : i = (pos - 1) / 2 := by rcases hcij with hcij | hcij <;> omega
            have hiLen : i < l.length := by
              have := Nat.div_le_self (pos - 1) 2
              omega
            rw [hjq, hgetPos, hgetSet _ i hiLen (by
              have := Nat.div_le_self (pos - 1) 2
              omega)]
            rw [hip]
            exact hskip (2 * pos + 1) (by omega) (by left; rfl) hp0
          · by_cases hiq : i = pos
            · have hjch : j = 2 * pos + 2 := by rcases hcij with hcij | hcij <;> omega
              have hlt : key (l.getD (2 * pos + 1) default) <
                  key (l.getD (2 * pos + 2) default) := by
                by_contra hcon
                exact hr ⟨by omega, hcon⟩
              rw [hiq, hgetPos, hgetSet _ j hj2 hjq, hjch]
              omega
            · rw [hgetSet _ i (by
                  have : i < j := by rcases hcij with hcij | hcij <;> omega
                  omega) hiq, hgetSet _ j hj2 hjq]
              exact hpairs i j hj2 hcij hiq hjq
        · intro c hcl hcc hc0
          have hcpar : (2 * pos + 1 - 1) / 2 = pos := by omega
          rw [hcpar, hgetPos, hgetSet _ c (by simpa using hcl) (by
            rcases hcc with hcc | hcc <;> omega)]
          exact hpairs (2 * pos + 1) c (by simpa using hcl) hcc (by omega) (by
            rcases hcc with hcc | hcc <;> omega)
    · refine siftdown_heapInv key x pos l hpos ⟨hpairs, ?_, hskip⟩
      intro c hc hcc
      rcases hcc with hcc | hcc <;> omega

/-- `siftup` restores the full heap invariant from `holeDn`. -/
theorem siftup_heapInv (key : α → Nat) (x : α) :
    ∀ n endpos pos l, endpos = l.length → endpos - pos ≤ n → pos < l.length →
      holeDn key x l pos → heapInv key (siftup key endpos 0 x l pos) := by
  intro n endpos pos l hend hn hpos hinv
  unfold siftup
  exact siftupFuel_heapInv key x (endpos - pos) endpos pos l hend
    (le_refl _) hpos hinv

/-- Pushing preserves the heap invariant. -/
theorem heappush_heapInv {key : α → Nat} {l : List α} (h : heapInv key l)
    (x : α) : heapInv key (heappush key l x) := by
  unfold heappush
  refine siftdown_heapInv key x l.length (l ++ [x]) (by simp) ⟨?_, ?_, ?_⟩
  · intro i j hj hc hip hjp
    have hj2 : j < l.length := by
      simp at hj
      omega
    have hi2 : i < l.length := by
      have : i < j := by rcases hc with hc | hc <;> omega
      omega
    have hgi : (l ++ [x]).getD i default = l.getD i default := by
      rw [List.getD_eq_getElem _ _ (by simp; omega), List.getElem_append_left hi2,
        List.getD_eq_getElem _ _ hi2]
    have hgj : (l ++ [x]).getD j default = l.getD j default := by
      rw [List.getD_eq_getElem _ _ (by simp; omega), List.getElem_append_left hj2,
        List.getD_eq_getElem _ _ hj2]
    rw [hgi, hgj]
    exact h i j hj2 hc
  · intro c hc hcc
    simp at hc
    rcases hcc with hcc | hcc <;> omega
  · intro c hc hcc
    simp at hc
    rcases hcc with hcc | hcc <;> omega

/-- Popping preserves the heap invariant. -/
theorem heappop_heapInv {key : α → Nat} {l : List α} (h : heapInv key l)
    (r : α) (l2 : List α) (hpop : heappop key l = some (r, l2)) :
    heapInv key l2 := by
  match l with
  | [] => simp [heappop] at hpop
  | x :: xs =>
    rw [heappop] at hpop
    rcases hd : (x :: xs : List α).dropLast with _ | ⟨y, ys⟩
    · rw [hd] at hpop
      simp only [Option.some_inj, Prod.mk.injEq] at hpop
      rw [← hpop.2]
      intro i j hj hc
      simp at hj
    · rw [hd] at hpop
      simp only [Option.some_inj, Prod.mk.injEq] at hpop
      rw [← hpop.2]
      have hlen : ((y :: ys : List α).set 0
          ((x :: xs : List α).getLast (by simp))).length
          = (y :: ys : List α).length := by simp
      have hdl : ∀ k, k < (y :: ys : List α).length →
          (y :: ys : List α).getD k default = (x :: xs : List α).getD k default := by
        intro k hk
        have hk2 : k < ((x :: xs : List α).dropLast).length := by rw [hd]; exact hk
        have hk3 : k < (x :: xs : List α).length := by
          simp at hk2 ⊢
          omega
        rw [← hd, List.getD_eq_getElem _ _ hk2, List.getElem_dropLast,
          List.getD_eq_getElem _ _ hk3]
      refine siftup_heapInv key _ ((y :: ys : List α).length) _ 0 _
        hlen.symm (le_refl _) (by simp) ⟨?_, ?_⟩
      · intro i j hj hc hip hjp
        have hj2 : j < (y :: ys : List α).length := by simpa using hj
        have hi2 : i < j := by rcases hc with hc | hc <;> omega
        have hgS : ∀ k, k < (y :: ys : List α).length → k ≠ 0 →
            (((y :: ys : List α).set 0
              ((x :: xs : List α).getLast (by simp))).getD k default)
            = (y :: ys : List α).getD k default := by
          intro k hk hk0
          rw [List.getD_eq_getElem _ _ (by simpa using hk),
            List.getElem_set_ne (fun e => hk0 e.symm)]
          exact (List.getD_eq_getElem _ _ hk).symm
        have hilen : i < (y :: ys : List α).length := by
          simp only [List.length_cons] at hj2 ⊢
          omega
        rw [hgS i hilen hip, hgS j hj2 hjp, hdl i hilen, hdl j hj2]
        have hj3 : j < (x :: xs : List α).length := by
          have h5 := congrArg List.length hd
          simp only [List.length_dropLast, List.length_cons] at h5
          simp only [List.length_cons] at hj2 ⊢
          omega
        exact h i j hj3 hc
      · intro c hc hcc hc0
        omega

/-- The popped element has minimal key among the heap elements. -/
theorem heappop_min {key : α → Nat} {l : List α} (h : heapInv key l)
    (r : α) (l2 : List α) (hpop : heappop key l = some (r, l2)) :
    ∀ y ∈ l, key r ≤ key y := by
  match l with
  | [] => simp [heappop] at hpop
  | x :: xs =>
    rw [heappop] at hpop
    rcases hd : (x :: xs : List α).dropLast with _ | ⟨y, ys⟩
    · rw [hd] at hpop
      simp only [Option.some_inj, Prod.mk.injEq] at hpop
      have hxs : xs = [] := by
        cases xs with
        | nil => rfl
        | cons a as => simp [List.dropLast] at hd
      subst hxs
      intro z hz
      simp at hz
      subst hz
      rw [← hpop.1]
      simp [List.getLast]
    · rw [hd] at hpop
      simp only [Option.some_inj, Prod.mk.injEq] at hpop
      have hyx : y = x := by
        cases xs with
        | nil => simp [List.dropLast] at hd
        | cons a as =>
          simp only [List.dropLast] at hd
          exact (List.cons_eq_cons.mp hd).1.symm
      intro z hz
      obtain ⟨k, hk, hzk⟩ := List.getElem_of_mem hz
      have hr0 : r = (x :: xs : List α).getD 0 default := by
        rw [← hpop.1, hyx]
        rfl
      rw [hr0, ← hzk, ← List.getD_eq_getElem _ default hk]
      exact heapInv_root_le h k hk

end HeapInv2

/-! ## Grid lemmas -/

/-- A shaped grid is literally a 3x3 matrix of nine cell values. -/
theorem shaped_explicit {g : Grid} (hs : Shaped g) :
    ∃ a b c d e f p q r : Nat, g = [[a, b, c], [d, e, f], [p, q, r]] := by
  obtain ⟨hlen, hrows⟩ := hs
  match g, hlen with
  | [r0, r1, r2], _ =>
    have h0 := hrows r0 (by simp)
    have h1 := hrows r1 (by simp)
    have h2 := hrows r2 (by simp)
    match r0, h0 with
    | [a, b, c], _ =>
      match r1, h1 with
      | [d, e, f], _ =>
        match r2, h2 with
        | [p, q, r], _ => exact ⟨a, b, c, d, e, f, p, q, r, rfl⟩

/-- Cells of a shaped grid live in the flattened list at index `3*i + j`. -/
theorem cell_eq_flatten {g : Grid} (hs : Shaped g) {i j : Nat}
    (hi : i < 3) (hj : j < 3) :
    cell g i j = g.flatten.getD (3 * i + j) 9 := by
  obtain ⟨a, b, c, d, e, f, p, q, r, rfl⟩ := shaped_explicit hs
  interval_cases i <;> interval_cases j <;> rfl

/-- `setCell` on a shaped grid is `set` at index `3*i + j` of the flattening. -/
theorem flatten_setCell {g : Grid} (hs : Shaped g) {i j : Nat}
    (hi : i < 3) (hj : j < 3) (v : Nat) :
    (setCell g i j v).flatten = g.flatten.set (3 * i + j) v := by
  obtain ⟨a, b, c, d, e, f, p, q, r, rfl⟩ := shaped_explicit hs
  interval_cases i <;> interval_cases j <;> rfl

/-- `setCell` preserves the shape. -/
theorem setCell_shaped {g : Grid} (hs : Shaped g) {i j : Nat}
    (hi : i < 3) (hj : j < 3) (v : Nat) : Shaped (setCell g i j v) := by
  obtain ⟨hlen, hrows⟩ := hs
  refine ⟨by simp [setCell, hlen], ?_⟩
  intro r hr
  unfold setCell at hr
  rcases List.mem_or_eq_of_mem_set hr with h | h
  · exact hrows r h
  · subst h
    rw [List.length_set]
    refine hrows _ ?_
    have hig : i < g.length := by omega
    rw [List.getD_eq_getElem _ _ hig]
    exact List.getElem_mem hig

/-- Reading an unchanged cell through `setCell`. -/
theorem cell_setCell_ne {g : Grid} (hs : Shaped g) {i j i2 j2 : Nat}
    (hi : i < 3) (hj : j < 3) (hi2 : i2 < 3) (hj2 : j2 < 3)
    (hne : ¬ (i2 = i ∧ j2 = j)) (v : Nat) :
    cell (setCell g i j v) i2 j2 = cell g i2 j2 := by
  have hlen : g.flatten.length = 9 := by
    obtain ⟨a, b, c, d, e, f, p, q, r, rfl⟩ := shaped_explicit hs
    rfl
  rw [cell_eq_flatten (setCell_shaped hs hi hj v) hi2 hj2,
    flatten_setCell hs hi hj v, cell_eq_flatten hs hi2 hj2]
  have hix : 3 * i + j ≠ 3 * i2 + j2 := by omega
  rw [List.getD_eq_getElem _ _ (by rw [List.length_set, hlen]; omega),
    List.getElem_set_ne hix, List.getD_eq_getElem _ _ (by omega)]

/-- Reading the changed cell through `setCell`. -/
theorem cell_setCell_self {g : Grid} (hs : Shaped g) {i j : Nat}
    (hi : i < 3) (hj : j < 3) (v : Nat) :
    cell (setCell g i j v) i j = v := by
  have hlen : g.flatten.length = 9 := by
    obtain ⟨a, b, c, d, e, f, p, q, r, rfl⟩ := shaped_explicit hs
    rfl
  rw [cell_eq_flatten (setCell_shaped hs hi hj v) hi hj,
    flatten_setCell hs hi hj v]
  rw [List.getD_eq_getElem _ _ (by rw [List.length_set, hlen]; omega),
    List.getElem_set_self (by simp only [List.length_set]; omega)]

/-- Swapping two flat positions is a permutation. -/
theorem set_set_perm (l : List Nat) (p q : Nat) (hp : p < l.length)
    (hq : q < l.length) (hne : p ≠ q) :
    (((l.set p (l.getD q default)).set q (l.getD p default))).Perm l := by
  have h1 : ((l.set p (l.getD q default)).set q (l.getD p default)).Perm
      ((l.getD p default) :: (l.set p (l.getD q default)).eraseIdx q) :=
    set_perm _ _ _ (by simpa using hq)
  have h2 : ((l.set p (l.getD q default)).eraseIdx q).Perm (l.eraseIdx p) :=
    erase_set_perm l p q hp hq hne
  have h3 : (l.set p (l.getD p default)).Perm ((l.getD p default) :: l.eraseIdx p) :=
    set_perm _ _ _ hp
  rw [set_self_eq l p hp] at h3
  exact (h1.trans (List.Perm.cons _ h2)).trans h3.symm

/-- `swapCells` keeps the multiset of cell values. -/
theorem swapCells_flatten_perm {g : Grid} (hs : Shaped g) {i j i2 j2 : Nat}
    (hi : i < 3) (hj : j < 3) (hi2 : i2 < 3) (hj2 : j2 < 3)
    (hne : ¬ (i = i2 ∧ j = j2)) :
    ((swapCells g i j i2 j2).flatten).Perm g.flatten := by
  have hlen : g.flatten.length = 9 := by
    obtain ⟨a, b, c, d, e, f, p, q, r, rfl⟩ := shaped_explicit hs
    rfl
  unfold swapCells
  rw [flatten_setCell (setCell_shaped hs hi hj _) hi2 hj2,
    flatten_setCell hs hi hj]
  have hb1 : 3 * i + j < g.flatten.length := by omega
  have hb2 : 3 * i2 + j2 < g.flatten.length := by omega
  have e1 : cell g i2 j2 = g.flatten.getD (3 * i2 + j2) default := by
    rw [cell_eq_flatten hs hi2 hj2, List.getD_eq_getElem _ 9 hb2,
      List.getD_eq_getElem _ default hb2]
  have e2 : cell g i j = g.flatten.getD (3 * i + j) default := by
    rw [cell_eq_flatten hs hi hj, List.getD_eq_getElem _ 9 hb1,
      List.getD_eq_getElem _ default hb1]
  rw [e1, e2]
  exact set_set_perm g.flatten (3 * i + j) (3 * i2 + j2) (by omega) (by omega)
    (by omega)

/-- `swapCells` preserves shape. -/
theorem swapCells_shaped {g : Grid} (hs : Shaped g) {i j i2 j2 : Nat}
    (hi : i < 3) (hj : j < 3) (hi2 : i2 < 3) (hj2 : j2 < 3) :
    Shaped (swapCells g i j i2 j2) :=
  setCell_shaped (setCell_shaped hs hi hj _) hi2 hj2 _

/-! ## Blank position and Manhattan distance lemmas -/

/-- Any position returned by `get_blank_position` is an in-range blank. -/
theorem gbp_some {g : Grid} {i j : Nat}
    (h : get_blank_position g = some (i, j)) :
    i < 3 ∧ j < 3 ∧ cell g i j = 0 := by
  unfold get_blank_position at h
  obtain ⟨i0, hi0, h1⟩ := List.exists_of_findSome?_eq_some h
  obtain ⟨j0, hj0, h2⟩ := List.exists_of_findSome?_eq_some h1
  by_cases hz : cell g i0 j0 = 0
  · rw [if_pos hz] at h2
    obtain ⟨rfl, rfl⟩ := Prod.mk.injEq .. ▸ Option.some_inj.mp h2
    exact ⟨by simpa using hi0, by simpa using hj0, hz⟩
  · rw [if_neg hz] at h2
    exact absurd h2 (by simp)

/-- The flattening of a valid grid has nine entries. -/
theorem valid_flatten_length {g : Grid} (hv : Valid g) :
    g.flatten.length = 9 := by
  have := hv.2.length_eq
  simpa using this

/-- All cells of a valid grid are below 9. -/
theorem valid_cell_lt {g : Grid} (hv : Valid g) {i j : Nat}
    (hi : i < 3) (hj : j < 3) : cell g i j < 9 := by
  have hlen := valid_flatten_length hv
  have hb : 3 * i + j < g.flatten.length := by omega
  have hcell : cell g i j = g.flatten.getD (3 * i + j) 9 :=
    cell_eq_flatten hv.1 hi hj
  rw [hcell]
  have hmem : g.flatten.getD (3 * i + j) 9 ∈ g.flatten := by
    rw [List.getD_eq_getElem _ _ hb]
    exact List.getElem_mem hb
  have := hv.2.mem_iff.mp hmem
  simpa using this

/-- A valid grid has a blank, and `get_blank_position` finds one. -/
theorem gbp_exists {g : Grid} (hv : Valid g) :
    ∃ i j, get_blank_position g = some (i, j) := by
  rcases hgb : get_blank_position g with _ | ⟨i, j⟩
  · exfalso
    have hzero : (0 : Nat) ∈ g.flatten := hv.2.mem_iff.mpr (by simp)
    obtain ⟨p, hp, hpz⟩ := List.getElem_of_mem hzero
    have hlen := valid_flatten_length hv
    have hcell : cell g (p / 3) (p % 3) = 0 := by
      rw [cell_eq_flatten hv.1 (by omega) (by omega)]
      rw [List.getD_eq_getElem _ _ (by omega : 3 * (p / 3) + p % 3 < g.flatten.length)]
      have hidx : 3 * (p / 3) + p % 3 = p := by omega
      simp only [hidx]
      exact hpz
    unfold get_blank_position at hgb
    rw [List.findSome?_eq_none_iff] at hgb
    have h1 := hgb (p / 3) (by simp; omega)
    rw [List.findSome?_eq_none_iff] at h1
    have h2 := h1 (p % 3) (by simp; omega)
    rw [if_pos hcell] at h2
    exact absurd h2 (by simp)
  · exact ⟨i, j, rfl⟩

/-- `manhattan_distance` of an explicit grid. -/
theorem md_explicit (a b c d e f p q r : Nat) :
    manhattan_distance [[a, b, c], [d, e, f], [p, q, r]] =
      mdTerm a 0 0 + mdTerm b 0 1 + mdTerm c 0 2 + mdTerm d 1 0 + mdTerm e 1 1 +
      mdTerm f 1 2 + mdTerm p 2 0 + mdTerm q 2 1 + mdTerm r 2 2 := by
  simp [manhattan_distance, cell, List.range_succ]

/-- Changing one cell exchanges exactly its term in `manhattan_distance`. -/
theorem md_setCell {s : Grid} (hs : Shaped s) {i j : Nat}
    (hi : i < 3) (hj : j < 3) (v : Nat) :
    manhattan_distance (setCell s i j v) + mdTerm (cell s i j) i j
      = manhattan_distance s + mdTerm v i j := by
  obtain ⟨a, b, c, d, e, f, p, q, r, rfl⟩ := shaped_explicit hs
  interval_cases i <;> interval_cases j <;>
    (simp only [setCell, cell, List.set, List.getD, List.get?, md_explicit]
     simp [md_explicit]
     omega)

/-- Triangle inequality for the per-cell term. -/
theorem mdTerm_triangle (v i j i2 j2 : Nat) :
    mdTerm v i j ≤ mdTerm v i2 j2 +
      (Int.natAbs ((i : Int) - (i2 : Int)) + Int.natAbs ((j : Int) - (j2 : Int))) := by
  unfold mdTerm
  by_cases hv : v = 0
  · simp [hv]
  · simp only [if_neg hv]
    omega

/-- The blank's term vanishes. -/
theorem mdTerm_zero (i j : Nat) : mdTerm 0 i j = 0 := rfl

/-- Swapping the blank with another cell moves exactly that cell's term. -/
theorem md_swap {s : Grid} (hs : Shaped s) {i j i2 j2 : Nat}
    (hi : i < 3) (hj : j < 3) (hi2 : i2 < 3) (hj2 : j2 < 3)
    (hblank : cell s i j = 0) (hne : ¬ (i = i2 ∧ j = j2)) :
    manhattan_distance (swapCells s i j i2 j2) + mdTerm (cell s i2 j2) i2 j2
      = manhattan_distance s + mdTerm (cell s i2 j2) i j := by
  unfold swapCells
  have hs1 : Shaped (setCell s i j (cell s i2 j2)) := setCell_shaped hs hi hj _
  have e1 : manhattan_distance (setCell s i j (cell s i2 j2))
      = manhattan_distance s + mdTerm (cell s i2 j2) i j := by
    have h0 := md_setCell hs hi hj (cell s i2 j2)
    rw [hblank, mdTerm_zero] at h0
    omega
  have hcell1 : cell (setCell s i j (cell s i2 j2)) i2 j2 = cell s i2 j2 :=
    cell_setCell_ne hs hi hj hi2 hj2 (by tauto) _
  have e2 := md_setCell hs1 hi2 hj2 (cell s i j)
  have hz : mdTerm (cell s i j) i2 j2 = 0 := by
    rw [hblank]
    rfl
  rw [hcell1, hz] at e2
  omega

/-- One move changes `manhattan_distance` by at most one, both ways. -/
theorem md_swap_lipschitz {s : Grid} (hs : Shaped s) {i j i2 j2 : Nat}
    (hi : i < 3) (hj : j < 3) (hi2 : i2 < 3) (hj2 : j2 < 3)
    (hblank : cell s i j = 0) (hadj : adjacentPos i j i2 j2) :
    manhattan_distance (swapCells s i j i2 j2) ≤ manhattan_distance s + 1 ∧
    manhattan_distance s ≤ manhattan_distance (swapCells s i j i2 j2) + 1 := by
  have hne : ¬ (i = i2 ∧ j = j2) := by
    unfold adjacentPos at hadj
    omega
  have hsw := md_swap hs hi hj hi2 hj2 hblank hne
  have hd1 : (Int.natAbs ((i : Int) - (i2 : Int)) +
      Int.natAbs ((j : Int) - (j2 : Int))) = 1 := by
    unfold adjacentPos at hadj
    omega
  have ht1 := mdTerm_triangle (cell s i2 j2) i j i2 j2
  have ht2 := mdTerm_triangle (cell s i2 j2) i2 j2 i j
  rw [hd1] at ht1
  have hd2 : (Int.natAbs ((i2 : Int) - (i : Int)) +
      Int.natAbs ((j2 : Int) - (j : Int))) = 1 := by
    unfold adjacentPos at hadj
    omega
  rw [hd2] at ht2
  omega

/-! ## Neighbor generation lemmas -/

/-- Membership in the conditional-append fold of `get_neighbors`. -/
theorem foldl_append_mem {β : Type} (f : β → Grid) (P : β → Prop)
    [DecidablePred P] (l : List β) (acc : List Grid) (b : Grid) :
    (b ∈ l.foldl (fun acc2 m => if P m then acc2 ++ [f m] else acc2) acc) ↔
      (b ∈ acc ∨ ∃ m ∈ l, P m ∧ b = f m) := by
  induction l generalizing acc with
  | nil => simp
  | cons x xs ih =>
    simp only [List.foldl_cons]
    by_cases hx : P x
    · rw [if_pos hx, ih]
      simp only [List.mem_append, List.mem_singleton, List.mem_cons,
        List.mem_nil_iff, or_false]
      constructor
      · rintro ((h | h) | h)
        · exact Or.inl h
        · exact Or.inr ⟨x, Or.inl rfl, hx, h⟩
        · obtain ⟨m, hm, hPm, hb⟩ := h
          exact Or.inr ⟨m, Or.inr hm, hPm, hb⟩
      · rintro (h | ⟨m, hm | hm, hPm, hb⟩)
        · exact Or.inl (Or.inl h)
        · subst hm
          exact Or.inl (Or.inr hb)
        · exact Or.inr ⟨m, hm, hPm, hb⟩
    · rw [if_neg hx, ih]
      constructor
      · rintro (h | ⟨m, hm, hPm, hb⟩)
        · exact Or.inl h
        · exact Or.inr ⟨m, List.mem_cons_of_mem x hm, hPm, hb⟩
      · rintro (h | ⟨m, hm, hPm, hb⟩)
        · exact Or.inl h
        · rcases List.mem_cons.mp hm with hm | hm
          · subst hm
            exact absurd hPm hx
          · exact Or.inr ⟨m, hm, hPm, hb⟩

/-- Length of the conditional-append fold. -/
theorem foldl_append_length {β : Type} (f : β → Grid) (P : β → Prop)
    [DecidablePred P] (l : List β) (acc : List Grid) :
    (l.foldl (fun acc2 m => if P m then acc2 ++ [f m] else acc2) acc).length =
      acc.length + l.countP (fun m => decide (P m)) := by
  induction l generalizing acc with
  | nil => simp
  | cons x xs ih =>
    simp only [List.foldl_cons, List.countP_cons]
    by_cases hx : P x
    · rw [if_pos hx, ih]
      simp [hx]
      omega
    · rw [if_neg hx, ih]
      simp [hx]

/-- `get_neighbors` are exactly the blank swaps to adjacent cells. -/
theorem mem_get_neighbors {s : Grid} {b : Grid} {i j : Nat}
    (hgbp : get_blank_position s = some (i, j)) :
    b ∈ get_neighbors s ↔
      ∃ i2 j2, i2 < 3 ∧ j2 < 3 ∧ adjacentPos i j i2 j2 ∧
        b = swapCells s i j i2 j2 := by
  obtain ⟨hi, hj, _⟩ := gbp_some hgbp
  unfold get_neighbors
  rw [hgbp]
  rw [foldl_append_mem
    (fun m : Int × Int => swapCells s i j ((i : Int) + m.1).toNat ((j : Int) + m.2).toNat)
    (fun m : Int × Int => 0 ≤ (i : Int) + m.1 ∧ (i : Int) + m.1 < 3 ∧
      0 ≤ (j : Int) + m.2 ∧ (j : Int) + m.2 < 3)
    moves [] b]
  simp only [List.mem_nil_iff, false_or]
  unfold moves
  constructor
  · rintro ⟨m, hm, hP, hb⟩
    subst hb
    simp only [List.mem_cons, List.mem_singleton, List.mem_nil_iff,
      or_false] at hm
    obtain ⟨hP1, hP2, hP3, hP4⟩ := hP
    rcases hm with rfl | rfl | rfl | rfl
    · exact ⟨((i : Int) + 1).toNat, ((j : Int) + 0).toNat, by omega, by omega,
        by unfold adjacentPos; omega, rfl⟩
    · exact ⟨((i : Int) + (-1)).toNat, ((j : Int) + 0).toNat, by omega, by omega,
        by unfold adjacentPos; omega, rfl⟩
    · exact ⟨((i : Int) + 0).toNat, ((j : Int) + 1).toNat, by omega, by omega,
        by unfold adjacentPos; omega, rfl⟩
    · exact ⟨((i : Int) + 0).toNat, ((j : Int) + (-1)).toNat, by omega, by omega,
        by unfold adjacentPos; omega, rfl⟩
  · rintro ⟨i2, j2, hi2, hj2, hadj, rfl⟩
    unfold adjacentPos at hadj
    rcases hadj with ⟨hii, hjj | hjj⟩ | ⟨hjj, hii | hii⟩
    · exact ⟨(0, 1), by simp, by omega, by congr 1 <;> omega⟩
    · exact ⟨(0, -1), by simp, by omega, by congr 1 <;> omega⟩
    · exact ⟨(1, 0), by simp, by omega, by congr 1 <;> omega⟩
    · exact ⟨(-1, 0), by simp, by omega, by congr 1 <;> omega⟩

/-- Every neighbor of a valid grid is valid. -/
theorem neighbors_valid {s b : Grid} (hv : Valid s)
    (hb : b ∈ get_neighbors s) : Valid b := by
  obtain ⟨i, j, hgbp⟩ := gbp_exists hv
  obtain ⟨hi, hj, _⟩ := gbp_some hgbp
  obtain ⟨i2, j2, hi2, hj2, hadj, rfl⟩ := (mem_get_neighbors hgbp).mp hb
  have hne : ¬ (i = i2 ∧ j = j2) := by
    unfold adjacentPos at hadj
    omega
  refine ⟨swapCells_shaped hv.1 hi hj hi2 hj2, ?_⟩
  exact (swapCells_flatten_perm hv.1 hi hj hi2 hj2 hne).trans hv.2

/-- Neighbors keep the multiset of tiles. -/
theorem neighbors_perm_flatten {s b : Grid} (hs : Shaped s) {i j : Nat}
    (hgbp : get_blank_position s = some (i, j))
    (hb : b ∈ get_neighbors s) : b.flatten.Perm s.flatten := by
  obtain ⟨hi, hj, _⟩ := gbp_some hgbp
  obtain ⟨i2, j2, hi2, hj2, hadj, rfl⟩ := (mem_get_neighbors hgbp).mp hb
  have hne : ¬ (i = i2 ∧ j = j2) := by
    unfold adjacentPos at hadj
    omega
  exact swapCells_flatten_perm hs hi hj hi2 hj2 hne

/-- Neighbors are shaped when the source grid is. -/
theorem neighbors_shaped {s b : Grid} (hs : Shaped s) {i j : Nat}
    (hgbp : get_blank_position s = some (i, j))
    (hb : b ∈ get_neighbors s) : Shaped b := by
  obtain ⟨hi, hj, _⟩ := gbp_some hgbp
  obtain ⟨i2, j2, hi2, hj2, hadj, rfl⟩ := (mem_get_neighbors hgbp).mp hb
  exact swapCells_shaped hs hi hj hi2 hj2

/-- Membership in `get_neighbors` coincides with the spec's legal move. -/
theorem mem_neighbors_iff_legalMove {s b : Grid} {i j : Nat}
    (hgbp : get_blank_position s = some (i, j)) :
    b ∈ get_neighbors s ↔ legalMove s b := by
  rw [mem_get_neighbors hgbp]
  unfold legalMove
  constructor
  · rintro ⟨i2, j2, hi2, hj2, hadj, rfl⟩
    exact ⟨i, j, i2, j2, hgbp, hi2, hj2, hadj, rfl⟩
  · rintro ⟨i0, j0, i2, j2, hgbp0, hi2, hj2, hadj, rfl⟩
    rw [hgbp] at hgbp0
    obtain ⟨rfl, rfl⟩ := Prod.mk.injEq .. ▸ Option.some_inj.mp hgbp0.symm
    exact ⟨i2, j2, hi2, hj2, hadj, rfl⟩

/-- One move changes `manhattan_distance` by at most one (neighbor form). -/
theorem md_neighbor_lipschitz {s b : Grid} (hs : Shaped s) {i j : Nat}
    (hgbp : get_blank_position s = some (i, j))
    (hb : b ∈ get_neighbors s) :
    manhattan_distance b ≤ manhattan_distance s + 1 ∧
    manhattan_distance s ≤ manhattan_distance b + 1 := by
  obtain ⟨hi, hj, hblank⟩ := gbp_some hgbp
  obtain ⟨i2, j2, hi2, hj2, hadj, rfl⟩ := (mem_get_neighbors hgbp).mp hb
  exact md_swap_lipschitz hs hi hj hi2 hj2 hblank hadj

/-! ## Search-loop invariants and path reconstruction -/

/-- Well-formed search node over initial grid `init`: the parent chain goes
back to the root holding `init`, each state is a neighbor of its parent's
state, and `g` counts the moves. -/
def nodeOK (init : Grid) : PuzzleNode → Prop
  | .root s g _ => s = init ∧ g = 0
  | .child s p g _ => nodeOK init p ∧ s ∈ get_neighbors p.state ∧ g = p.g + 1

/-- The reconstructed path is never empty. -/
theorem pathOf_ne_nil (n : PuzzleNode) : pathOf n ≠ [] := by
  cases n with
  | root s g h => simp [pathOf]
  | child s p g h => simp [pathOf]

/-- The reconstructed path ends at the node's state. -/
theorem pathOf_getLast (n : PuzzleNode) : (pathOf n).getLast? = some n.state := by
  cases n with
  | root s g h => simp [pathOf, PuzzleNode.state]
  | child s p g h => simp [pathOf, PuzzleNode.state]

/-- The reconstructed path of a well-formed node starts at `init`. -/
theorem pathOf_head {init : Grid} {n : PuzzleNode} (h : nodeOK init n) :
    (pathOf n).head? = some init := by
  induction n with
  | root s g hh =>
    obtain ⟨rfl, _⟩ := h
    simp [pathOf]
  | child s p g hh ih =>
    obtain ⟨hp, _, _⟩ := h
    rw [pathOf, List.head?_append_of_ne_nil _ (pathOf_ne_nil p)]
    exact ih hp

/-- The reconstructed path has `g + 1` entries. -/
theorem pathOf_length {init : Grid} {n : PuzzleNode} (h : nodeOK init n) :
    (pathOf n).length = n.g + 1 := by
  induction n with
  | root s g hh =>
    obtain ⟨_, rfl⟩ := h
    simp [pathOf, PuzzleNode.g]
  | child s p g hh ih =>
    obtain ⟨hp, _, hg⟩ := h
    rw [pathOf, List.length_append, ih hp]
    simp [PuzzleNode.g, hg]

/-- All states along a well-formed node's chain are valid. -/
theorem nodeOK_valid {init : Grid} (hv : Valid init) {n : PuzzleNode}
    (h : nodeOK init n) : Valid n.state := by
  induction n with
  | root s g hh =>
    obtain ⟨rfl, _⟩ := h
    exact hv
  | child s p g hh ih =>
    obtain ⟨hp, hmem, _⟩ := h
    exact neighbors_valid (ih hp) hmem

/-- The reconstructed path of a well-formed node is a chain of legal moves. -/
theorem pathOf_chain {init : Grid} (hv : Valid init) {n : PuzzleNode}
    (h : nodeOK init n) : List.Chain' legalMove (pathOf n) := by
  induction n with
  | root s g hh => simp [pathOf]
  | child s p g hh ih =>
    obtain ⟨hp, hmem, _⟩ := h
    rw [pathOf, List.chain'_append]
    refine ⟨ih hp, by simp, ?_⟩
    intro x hx y hy
    rw [pathOf_getLast] at hx
    simp at hy
    obtain rfl := Option.some_inj.mp hx
    subst hy
    obtain ⟨bi, bj, hgbp⟩ := gbp_exists (nodeOK_valid hv hp)
    exact (mem_neighbors_iff_legalMove hgbp).mp hmem

/-- A well-formed node's path is a solution path when it reaches the goal. -/
theorem pathOf_solpath {init : Grid} (hv : Valid init) {n : PuzzleNode}
    (h : nodeOK init n) (hgoal : n.state = goal_state) :
    SolPath init goal_state (pathOf n) := by
  refine ⟨pathOf_head h, ?_, pathOf_chain hv h⟩
  rw [pathOf_getLast, hgoal]

/-- Evaluation of the loop body after a successful pop. -/
theorem aStarStep_eq_pop (st : SState) (cur : PuzzleNode)
    (rest : List PuzzleNode)
    (hpop : heappop nodeKey st.openl = some (cur, rest)) :
    aStarStep st =
      if cur.state = goal_state then .foundPath (pathOf cur)
      else .next ⟨(get_neighbors cur.state).foldl
        (fun o ns =>
          if ns ∈ insertG cur.state st.closed then o
          else heappush nodeKey o
            (PuzzleNode.child ns cur (cur.g + 1) (manhattan_distance ns)))
        rest, insertG cur.state st.closed⟩ := by
  unfold aStarStep
  rw [hpop]

/-- Evaluation of the loop body on an empty open list. -/
theorem aStarStep_eq_empty (st : SState)
    (hpop : heappop nodeKey st.openl = none) :
    aStarStep st = .emptyOpen := by
  unfold aStarStep
  rw [hpop]

/-- Characterization of a `next` step of the loop body. -/
theorem aStarStep_next {st st2 : SState} (h : aStarStep st = .next st2) :
    ∃ cur rest, heappop nodeKey st.openl = some (cur, rest) ∧
      cur.state ≠ goal_state ∧
      st2.closed = insertG cur.state st.closed ∧
      st2.openl = (get_neighbors cur.state).foldl
        (fun o ns =>
          if ns ∈ insertG cur.state st.closed then o
          else heappush nodeKey o
            (PuzzleNode.child ns cur (cur.g + 1) (manhattan_distance ns)))
        rest := by
  rcases hpop : heappop nodeKey st.openl with _ | ⟨cur, rest⟩
  · rw [aStarStep_eq_empty st hpop] at h
    exact absurd h (by simp)
  · rw [aStarStep_eq_pop st cur rest hpop] at h
    by_cases hg : cur.state = goal_state
    · rw [if_pos hg] at h
      exact absurd h (by simp)
    · rw [if_neg hg] at h
      simp only [StepOut.next.injEq] at h
      exact ⟨cur, rest, rfl, hg, by rw [← h], by rw [← h]⟩

/-- Characterization of a successful step of the loop body. -/
theorem aStarStep_found {st : SState} {p : List Grid}
    (h : aStarStep st = .foundPath p) :
    ∃ cur rest, heappop nodeKey st.openl = some (cur, rest) ∧
      cur.state = goal_state ∧ p = pathOf cur := by
  rcases hpop : heappop nodeKey st.openl with _ | ⟨cur, rest⟩
  · rw [aStarStep_eq_empty st hpop] at h
    exact absurd h (by simp)
  · rw [aStarStep_eq_pop st cur rest hpop] at h
    by_cases hg : cur.state = goal_state
    · rw [if_pos hg] at h
      simp only [StepOut.foundPath.injEq] at h
      exact ⟨cur, rest, rfl, hg, h.symm⟩
    · rw [if_neg hg] at h
      exact absurd h (by simp)

/-- Membership in the push fold of an expansion. -/
theorem expand_mem {cur : PuzzleNode} {closed2 : List Grid} {y : PuzzleNode} :
    ∀ (l : List Grid) (o : List PuzzleNode),
      y ∈ l.foldl
        (fun o2 ns =>
          if ns ∈ closed2 then o2
          else heappush nodeKey o2
            (PuzzleNode.child ns cur (cur.g + 1) (manhattan_distance ns))) o →
      y ∈ o ∨ ∃ ns ∈ l, ns ∉ closed2 ∧
        y = PuzzleNode.child ns cur (cur.g + 1) (manhattan_distance ns) := by
  intro l
  induction l with
  | nil =>
    intro o hy
    exact Or.inl hy
  | cons x xs ih =>
    intro o hy
    simp only [List.foldl_cons] at hy
    by_cases hx : x ∈ closed2
    · rw [if_pos hx] at hy
      rcases ih _ hy with h | ⟨ns, hns, hns2, hns3⟩
      · exact Or.inl h
      · exact Or.inr ⟨ns, List.mem_cons_of_mem x hns, hns2, hns3⟩
    · rw [if_neg hx] at hy
      rcases ih _ hy with h | ⟨ns, hns, hns2, hns3⟩
      · rcases (mem_heappush _ _ _ _).mp h with h2 | h2
        · exact Or.inr ⟨x, List.mem_cons_self x xs, hx, h2⟩
        · exact Or.inl h2
      · exact Or.inr ⟨ns, List.mem_cons_of_mem x hns, hns2, hns3⟩

/-- All open nodes are well-formed over `init`. -/
def OpenInv (init : Grid) (st : SState) : Prop :=
  ∀ n ∈ st.openl, nodeOK init n

/-- The loop body preserves well-formedness of open nodes. -/
theorem aStarStep_openInv {init : Grid} {st st2 : SState}
    (hinv : OpenInv init st) (h : aStarStep st = .next st2) :
    OpenInv init st2 := by
  obtain ⟨cur, rest, hpop, hgoal, hcl, hop⟩ := aStarStep_next h
  have hcur : nodeOK init cur := hinv cur (heappop_mem _ _ _ _ hpop).1
  intro y hy
  rw [hop] at hy
  rcases expand_mem _ _ hy with h2 | ⟨ns, hns, _, rfl⟩
  · exact hinv y ((heappop_mem _ _ _ _ hpop).2 y h2)
  · exact ⟨hcur, hns, rfl⟩

/-- A successful run returns the reconstructed path of a well-formed
goal node. -/
theorem solveLoop_found {init : Grid} :
    ∀ (fuel : Nat) (st : SState) (p : List Grid), OpenInv init st →
      solveLoop fuel st = some (some p) →
      ∃ n, nodeOK init n ∧ n.state = goal_state ∧ p = pathOf n := by
  intro fuel
  induction fuel with
  | zero =>
    intro st p _ h
    simp [solveLoop] at h
  | succ fuel ih =>
    intro st p hinv h
    rw [solveLoop] at h
    rcases hstep : aStarStep st with _ | q | st2
    · rw [hstep] at h
      simp at h
    · rw [hstep] at h
      simp only [Option.some_inj] at h
      obtain ⟨cur, rest, hpop, hgoal, hq⟩ := aStarStep_found hstep
      exact ⟨cur, hinv cur (heappop_mem _ _ _ _ hpop).1, hgoal, by
        rw [← h, hq]⟩
    · rw [hstep] at h
      exact ih st2 p (aStarStep_openInv hinv hstep) h

/-! ## The heuristic target: source formula versus spec scan -/

/-- `mdTo` of an explicit grid. -/
theorem mdTo_explicit (t : Grid) (a b c d e f p q r : Nat) :
    mdTo t [[a, b, c], [d, e, f], [p, q, r]] =
      mdToTerm t a 0 0 + mdToTerm t b 0 1 + mdToTerm t c 0 2 +
      mdToTerm t d 1 0 + mdToTerm t e 1 1 + mdToTerm t f 1 2 +
      mdToTerm t p 2 0 + mdToTerm t q 2 1 + mdToTerm t r 2 2 := by
  simp [mdTo, cell, List.range_succ]

/-- For tile values 0..8, the source's `divmod(v-1, 3)` target is the
position of `v` in the standard layout `stdGoal`. -/
theorem mdTerm_eq_mdToTerm_std (v i j : Nat) (hv : v < 9) :
    mdTerm v i j = mdToTerm stdGoal v i j := by
  interval_cases v <;> rfl

/-- On valid grids the source heuristic is the spec heuristic measured
against the standard layout `stdGoal`. -/
theorem md_eq_mdTo_std {g : Grid} (hv : Valid g) :
    manhattan_distance g = mdTo stdGoal g := by
  have h00 := valid_cell_lt hv (by omega : (0:Nat) < 3) (by omega : (0:Nat) < 3)
  have h01 := valid_cell_lt hv (by omega : (0:Nat) < 3) (by omega : (1:Nat) < 3)
  have h02 := valid_cell_lt hv (by omega : (0:Nat) < 3) (by omega : (2:Nat) < 3)
  have h10 := valid_cell_lt hv (by omega : (1:Nat) < 3) (by omega : (0:Nat) < 3)
  have h11 := valid_cell_lt hv (by omega : (1:Nat) < 3) (by omega : (1:Nat) < 3)
  have h12 := valid_cell_lt hv (by omega : (1:Nat) < 3) (by omega : (2:Nat) < 3)
  have h20 := valid_cell_lt hv (by omega : (2:Nat) < 3) (by omega : (0:Nat) < 3)
  have h21 := valid_cell_lt hv (by omega : (2:Nat) < 3) (by omega : (1:Nat) < 3)
  have h22 := valid_cell_lt hv (by omega : (2:Nat) < 3) (by omega : (2:Nat) < 3)
  obtain ⟨a, b, c, d, e, f, p, q, r, hg⟩ := shaped_explicit hv.1
  subst hg
  simp only [cell, List.getD] at h00 h01 h02 h10 h11 h12 h20 h21 h22
  rw [md_explicit, mdTo_explicit]
  simp only [List.get?] at h00 h01 h02 h10 h11 h12 h20 h21 h22
  rw [mdTerm_eq_mdToTerm_std a _ _ (by simpa using h00),
    mdTerm_eq_mdToTerm_std b _ _ (by simpa using h01),
    mdTerm_eq_mdToTerm_std c _ _ (by simpa using h02),
    mdTerm_eq_mdToTerm_std d _ _ (by simpa using h10),
    mdTerm_eq_mdToTerm_std e _ _ (by simpa using h11),
    mdTerm_eq_mdToTerm_std f _ _ (by simpa using h12),
    mdTerm_eq_mdToTerm_std p _ _ (by simpa using h20),
    mdTerm_eq_mdToTerm_std q _ _ (by simpa using h21),
    mdTerm_eq_mdToTerm_std r _ _ (by simpa using h22)]

/-! ## Push-fold invariant preservation -/

/-- Pushing the non-closed neighbors preserves the heap invariant. -/
theorem expand_heapInv {cur : PuzzleNode} {closed2 : List Grid} :
    ∀ (l : List Grid) (o : List PuzzleNode), heapInv nodeKey o →
      heapInv nodeKey (l.foldl
        (fun o2 ns =>
          if ns ∈ closed2 then o2
          else heappush nodeKey o2
            (PuzzleNode.child ns cur (cur.g + 1) (manhattan_distance ns))) o) := by
  intro l
  induction l with
  | nil =>
    intro o ho
    exact ho
  | cons x xs ih =>
    intro o ho
    simp only [List.foldl_cons]
    by_cases hx : x ∈ closed2
    · rw [if_pos hx]
      exact ih o ho
    · rw [if_neg hx]
      exact ih _ (heappush_heapInv ho _)

/-! ## Claims -/

/-- C1 (counterexample): `manhattan_distance` does not measure distance to
the module-level `goal_state`: on `goal_state` itself it returns 12, while
the spec's sum of L1 distances to positions scanned from `goal_state`
returns 0 there. -/
theorem claimC1_counterexample :
    manhattan_distance goal_state = 12 ∧ mdTo goal_state goal_state = 0 := by
  constructor
  · decide
  · decide

/-- C1 (amended): for every valid grid, `manhattan_distance(grid)` equals
the sum over all non-blank cells of the L1 distance from the cell's current
position to the position of that value in the standard layout
`[[1,2,3],[4,5,6],[7,8,0]]` (not in the module-level `goal_state`);
`manhattan_distance` of that standard layout is 0,
`manhattan_distance(grid) >= 0` always, and `manhattan_distance(goal_state)`
is 12, not 0. -/
theorem claimC1 :
    (∀ g, Valid g → manhattan_distance g = mdTo stdGoal g) ∧
    manhattan_distance stdGoal = 0 ∧
    (∀ g, 0 ≤ manhattan_distance g) ∧
    manhattan_distance goal_state = 12 :=
  ⟨fun _ hv => md_eq_mdTo_std hv, by decide, fun _ => Nat.zero_le _, by decide⟩

/-- C1 (witness): the amended claim instantiated at the standard layout. -/
theorem claimC1_witness :
    Valid stdGoal ∧ manhattan_distance stdGoal = mdTo stdGoal stdGoal :=
  ⟨by decide, claimC1.1 stdGoal (by decide)⟩

/-- C10: on every valid grid `manhattan_distance` computes each non-blank
value's target as `divmod(v-1, 3)`, i.e. it equals the spec-style scan
distance to the fixed layout `[[1,2,3],[4,5,6],[7,8,0]]`, and it is not the
scan distance to the module-level `goal_state` that `solve_puzzle` uses for
its termination check (they differ on `goal_state` itself). -/
theorem claimC10 :
    (∀ g, Valid g → manhattan_distance g = mdTo stdGoal g) ∧
    manhattan_distance goal_state ≠ mdTo goal_state goal_state :=
  ⟨fun _ hv => md_eq_mdTo_std hv, by decide⟩

/-- C10 (witness): instantiated at `goal_state`, which is a valid grid. -/
theorem claimC10_witness :
    Valid goal_state ∧ manhattan_distance goal_state = mdTo stdGoal goal_state :=
  ⟨by decide, claimC10.1 goal_state (by decide)⟩

/-- C4: whenever `solve_puzzle` returns a sequence on a valid initial grid,
the sequence starts with the initial grid, ends with `goal_state`, and every
pair of consecutive grids differs by exactly one swap of the blank tile with
an axis-adjacent tile. -/
theorem claimC4 (init : Grid) (fuel : Nat) (p : List Grid) (hv : Valid init)
    (h : solve_puzzle init fuel = some (some p)) :
    p.head? = some init ∧ p.getLast? = some goal_state ∧
      List.Chain' legalMove p := by
  obtain ⟨n, hn, hgoal, rfl⟩ := solveLoop_found fuel (startState init) p
    (by
      intro y hy
      simp only [startState, List.mem_singleton] at hy
      subst hy
      exact ⟨rfl, rfl⟩) h
  exact ⟨pathOf_head hn, by rw [pathOf_getLast, hgoal], pathOf_chain hv hn⟩

/-- C4 (witness): the already-solved instance returns the one-grid path. -/
theorem claimC4_witness :
    Valid goal_state ∧ solve_puzzle goal_state 1 = some (some [goal_state]) ∧
    ([goal_state].head? = some goal_state ∧
      [goal_state].getLast? = some goal_state ∧
      List.Chain' legalMove [goal_state]) :=
  ⟨by decide, by decide, claimC4 goal_state 1 [goal_state] (by decide) (by decide)⟩

/-- C5: the outcomes of `solve_puzzle` are exactly the distinguished
no-solution result (`None`) or a path of at least one grid; the two cannot
be confused since no successful path is empty, so a caller separates them
with a plain emptiness/None test and no exception handling. -/
theorem claimC5 (init : Grid) (fuel : Nat) (r : Option (List Grid))
    (h : solve_puzzle init fuel = some r) :
    r = none ∨ ∃ p, r = some p ∧ 1 ≤ p.length := by
  rcases r with _ | p
  · exact Or.inl rfl
  · right
    obtain ⟨n, hn, _, rfl⟩ := solveLoop_found fuel (startState init) p
      (by
        intro y hy
        simp only [startState, List.mem_singleton] at hy
        subst hy
        exact ⟨rfl, rfl⟩) h
    exact ⟨pathOf n, rfl, by rw [pathOf_length hn]; omega⟩

/-- C5 (witness): instantiated at the already-solved instance. -/
theorem claimC5_witness :
    solve_puzzle goal_state 1 = some (some [goal_state]) ∧
    (some [goal_state] = none ∨
      ∃ p, some [goal_state] = some p ∧ 1 ≤ p.length) :=
  ⟨by decide, claimC5 goal_state 1 (some [goal_state]) (by decide)⟩

/-- C7 (counterexample): Python's `heapq` does not break ties by insertion
order. Pushing a node `a` with key 1, then `b` with key 1, then `c` with
key 0 into an empty frontier and popping twice returns `c` then `b`: the
node `b` inserted after the equal-key node `a` is popped first. -/
theorem claimC7_counterexample :
    nodeKey (PuzzleNode.root stdGoal 0 1) =
      nodeKey (PuzzleNode.root goal_state 1 0) ∧
    PuzzleNode.root stdGoal 0 1 ≠ PuzzleNode.root goal_state 1 0 ∧
    heappop nodeKey (heappush nodeKey (heappush nodeKey (heappush nodeKey []
        (PuzzleNode.root stdGoal 0 1)) (PuzzleNode.root goal_state 1 0))
        (PuzzleNode.root initial_state 0 0)) =
      some (PuzzleNode.root initial_state 0 0,
        [PuzzleNode.root goal_state 1 0, PuzzleNode.root stdGoal 0 1]) ∧
    heappop nodeKey
        [PuzzleNode.root goal_state 1 0, PuzzleNode.root stdGoal 0 1] =
      some (PuzzleNode.root goal_state 1 0, [PuzzleNode.root stdGoal 0 1]) := by
  refine ⟨rfl, by decide, by decide, by decide⟩

/-- C7 (amended): each iteration pops a frontier node with minimal
`f = g + h` (the `PuzzleNode` key), and the loop body preserves the binary
heap invariant of the frontier; ties among equal minimal keys are broken by
the heap's array structure, not by insertion order. -/
theorem claimC7 (st : SState) (cur : PuzzleNode) (rest : List PuzzleNode)
    (hinv : heapInv nodeKey st.openl)
    (hpop : heappop nodeKey st.openl = some (cur, rest)) :
    (∀ y ∈ st.openl, nodeKey cur ≤ nodeKey y) ∧
    ∀ st2, aStarStep st = .next st2 → heapInv nodeKey st2.openl := by
  refine ⟨heappop_min hinv cur rest hpop, ?_⟩
  intro st2 hstep
  obtain ⟨cur2, rest2, hpop2, _, _, hop⟩ := aStarStep_next hstep
  rw [hop]
  exact expand_heapInv _ _ (heappop_heapInv hinv cur2 rest2 hpop2)

/-- C7 (witness): instantiated at the singleton starting frontier. -/
theorem claimC7_witness :
    heapInv nodeKey (startState goal_state).openl ∧
    heappop nodeKey (startState goal_state).openl =
      some (PuzzleNode.root goal_state 0 12, []) ∧
    ((∀ y ∈ (startState goal_state).openl,
        nodeKey (PuzzleNode.root goal_state 0 12) ≤ nodeKey y) ∧
      ∀ st2, aStarStep (startState goal_state) = .next st2 →
        heapInv nodeKey st2.openl) := by
  have hinv : heapInv nodeKey (startState goal_state).openl := by
    intro i j hj hc
    simp only [startState, List.length_singleton] at hj
    rcases hc with hc | hc <;> omega
  exact ⟨hinv, by decide, claimC7 (startState goal_state)
    (PuzzleNode.root goal_state 0 12) [] hinv (by decide)⟩

/-- C8: on a valid grid, `get_neighbors` returns exactly 2 grids when the
blank is in a corner, 3 on an edge, 4 in the center, and every returned
grid is itself a valid permutation grid. -/
theorem claimC8 (g : Grid) (i j : Nat) (hv : Valid g)
    (hgbp : get_blank_position g = some (i, j)) :
    (((i = 0 ∨ i = 2) ∧ (j = 0 ∨ j = 2)) → (get_neighbors g).length = 2) ∧
    (((i = 1 ∧ j ≠ 1) ∨ (i ≠ 1 ∧ j = 1)) → (get_neighbors g).length = 3) ∧
    ((i = 1 ∧ j = 1) → (get_neighbors g).length = 4) ∧
    (∀ b ∈ get_neighbors g, Valid b) := by
  obtain ⟨hi, hj, _⟩ := gbp_some hgbp
  have hlen : (get_neighbors g).length =
      moves.countP (fun m : Int × Int =>
        decide (0 ≤ (i : Int) + m.1 ∧ (i : Int) + m.1 < 3 ∧
          0 ≤ (j : Int) + m.2 ∧ (j : Int) + m.2 < 3)) := by
    unfold get_neighbors
    rw [hgbp]
    rw [foldl_append_length
      (fun m : Int × Int =>
        swapCells g i j ((i : Int) + m.1).toNat ((j : Int) + m.2).toNat)
      (fun m : Int × Int => 0 ≤ (i : Int) + m.1 ∧ (i : Int) + m.1 < 3 ∧
        0 ≤ (j : Int) + m.2 ∧ (j : Int) + m.2 < 3)
      moves []]
    simp
  refine ⟨?_, ?_, ?_, fun b hb => neighbors_valid hv hb⟩ <;>
    (intro hc
     rw [hlen]
     interval_cases i <;> interval_cases j <;> first | omega | decide)

/-- C8 (witness): the standard layout has its blank in the bottom-right
corner and two valid neighbors. -/
theorem claimC8_witness :
    Valid stdGoal ∧ get_blank_position stdGoal = some (2, 2) ∧
    ((((2:Nat) = 0 ∨ (2:Nat) = 2) ∧ ((2:Nat) = 0 ∨ (2:Nat) = 2)) →
      (get_neighbors stdGoal).length = 2) ∧ (get_neighbors stdGoal).length = 2 :=
  ⟨by decide, by decide,
    (claimC8 stdGoal 2 2 (by decide) (by decide)).1,
    (claimC8 stdGoal 2 2 (by decide) (by decide)).1 (by omega)⟩

/-! ## C6: input validation -/

/-- A malformed grid: the value 1 appears twice and 8 is missing. -/
def invalidG : Grid := [[1, 1, 2], [3, 4, 5], [6, 7, 0]]

/-- Whether a loop-body outcome continues the search. -/
def stepIsNext : StepOut → Bool
  | .next _ => true
  | _ => false

/-- Modelled from the spec: `solve_puzzle` detects a malformed grid once at
entry, before any search step, so a grid that is not a valid 3x3
permutation of 0..8 never undergoes a search step. -/
def claimC6Stated : Prop :=
  ∀ g, ¬ Valid g → ∀ st2, aStarStep (startState g) ≠ StepOut.next st2

/-- C6 (counterexample): there is no entry validation: the malformed grid
`[[1,1,2],[3,4,5],[6,7,0]]` (duplicate 1, missing 8) is not rejected; the
first loop iteration expands it like any other grid. -/
theorem claimC6_counterexample : ¬ claimC6Stated := by
  intro h
  have hv : ¬ Valid invalidG := by decide
  have hnext : stepIsNext (aStarStep (startState invalidG)) = true := by decide
  rcases hstep : aStarStep (startState invalidG) with _ | p | st2
  · rw [hstep] at hnext
    simp [stepIsNext] at hnext
  · rw [hstep] at hnext
    simp [stepIsNext] at hnext
  · exact h invalidG hv st2 hstep

/-- C6 (amended): `solve_puzzle` performs no input validation and the
program defines no `InvalidGridError`: every 3x3 grid holding a blank
other than `goal_state` -- whether or not its values form a permutation of
0..8 -- undergoes a first search step that expands it and marks it
explored; in particular the malformed grid `[[1,1,2],[3,4,5],[6,7,0]]`
(duplicate 1, missing 8) is expanded, with its two neighbors pushed onto
the frontier. The shape and blank hypotheses keep the statement on the
grids the Python code runs to a loop iteration on: outside them it dies
with a generic `IndexError` or `TypeError`, still not an
`InvalidGridError`. -/
theorem claimC6 :
    (∀ g : Grid, Shaped g → (∃ pos, get_blank_position g = some pos) →
      g ≠ goal_state →
      ∃ st2, aStarStep (startState g) = StepOut.next st2 ∧
        st2.closed = [g]) ∧
    (¬ Valid invalidG ∧
      ∃ st2, aStarStep (startState invalidG) = StepOut.next st2 ∧
        st2.openl.length = 2) := by
  constructor
  · intro g _ _ hg
    have hpop : heappop nodeKey (startState g).openl =
        some (PuzzleNode.root g 0 (manhattan_distance g), []) := rfl
    rw [aStarStep_eq_pop _ _ _ hpop]
    simp only [PuzzleNode.state]
    rw [if_neg hg]
    refine ⟨_, rfl, ?_⟩
    simp [insertG, startState]
  · refine ⟨by decide, ?_⟩
    have hnext : stepIsNext (aStarStep (startState invalidG)) = true := by
      decide
    rcases hstep : aStarStep (startState invalidG) with _ | p | st2
    · rw [hstep] at hnext
      simp [stepIsNext] at hnext
    · rw [hstep] at hnext
      simp [stepIsNext] at hnext
    · refine ⟨st2, rfl, ?_⟩
      have hlen : (match aStarStep (startState invalidG) with
          | StepOut.next st => st.openl.length
          | _ => 0) = 2 := by decide
      rw [hstep] at hlen
      exact hlen

/-- C6 (witness): the amended claim instantiated at the standard layout,
a 3x3 grid with its blank at (2,2) that differs from `goal_state`. -/
theorem claimC6_witness :
    ∃ st2, aStarStep (startState stdGoal) = StepOut.next st2 ∧
      st2.closed = [stdGoal] :=
  claimC6.1 stdGoal (by decide) ⟨(2, 2), by decide⟩ (by decide)

/-! ## C3: duplicate pops are not discarded -/

/-- The initial grid on which the search pops an already-explored grid
(at iteration 15) and expands it anyway. -/
def dupInit : Grid := [[2, 3, 4], [8, 7, 6], [0, 1, 5]]

/-- The loop state after 15 iterations from `dupInit`. -/
def dupSt : SState :=
  match stepN 15 (startState dupInit) with
  | some st => st
  | none => startState dupInit

/-- The open-list length of a `next` outcome. -/
def openLenOf : StepOut → Nat
  | .next st => st.openl.length
  | _ => 0

/-- Modelled from the spec: in the search loop, whenever a popped node's
grid is already in the explored set, the node is discarded without being
expanded -- nothing is pushed and the explored set is unchanged, so the
loop state becomes exactly `(rest, closed)`. -/
def claimC3Stated : Prop :=
  ∀ init k st cur rest, Valid init →
    stepN k (startState init) = some st →
    heappop nodeKey st.openl = some (cur, rest) →
    cur.state ≠ goal_state → cur.state ∈ st.closed →
    aStarStep st = StepOut.next ⟨rest, st.closed⟩

/-- Inserting a grid already present leaves the explored set unchanged. -/
theorem insertG_mem {s : Grid} {l : List Grid} (h : s ∈ l) :
    insertG s l = l := by
  unfold insertG
  rw [if_pos h]

/-- Length of the push fold of an expansion: one push per neighbor not in
the explored set. -/
theorem expand_length {cur : PuzzleNode} {closed2 : List Grid} :
    ∀ (l : List Grid) (o : List PuzzleNode),
      (l.foldl
        (fun o2 ns =>
          if ns ∈ closed2 then o2
          else heappush nodeKey o2
            (PuzzleNode.child ns cur (cur.g + 1) (manhattan_distance ns)))
        o).length
      = o.length + l.countP (fun ns => decide (ns ∉ closed2)) := by
  intro l
  induction l with
  | nil =>
    intro o
    simp
  | cons x xs ih =>
    intro o
    simp only [List.foldl_cons, List.countP_cons]
    by_cases hx : x ∈ closed2
    · rw [if_pos hx, ih]
      simp [hx]
    · rw [if_neg hx, ih]
      have hlen : (heappush nodeKey o
          (PuzzleNode.child x cur (cur.g + 1) (manhattan_distance x))).length
          = o.length + 1 := by
        have := (heappush_perm nodeKey o
          (PuzzleNode.child x cur (cur.g + 1) (manhattan_distance x))).length_eq
        simpa using this
      rw [hlen]
      simp [hx]
      omega

/-- C3 (counterexample): at iteration 15 of the search from
`[[2,3,4],[8,7,6],[0,1,5]]`, the popped node's grid is already explored,
yet the loop body does not discard it: the resulting open list has 14
entries where a discard would leave the 12 remaining ones. -/
theorem claimC3_counterexample : ¬ claimC3Stated := by
  intro hcl
  have hval : Valid dupInit := by decide
  have hstep : stepN 15 (startState dupInit) = some dupSt := by decide
  rcases hpop : heappop nodeKey dupSt.openl with _ | ⟨cur, rest⟩
  · have h1 : (heappop nodeKey dupSt.openl).isSome = true := by decide
    rw [hpop] at h1
    simp at h1
  · have hmem : (heappop nodeKey dupSt.openl).map
        (fun pr => decide (pr.1.state ∈ dupSt.closed)) = some true := by decide
    have hng : (heappop nodeKey dupSt.openl).map
        (fun pr => decide (pr.1.state = goal_state)) = some false := by decide
    have hrl : (heappop nodeKey dupSt.openl).map
        (fun pr => pr.2.length) = some 12 := by decide
    have hol : openLenOf (aStarStep dupSt) = 14 := by decide
    rw [hpop] at hmem hng hrl
    simp only [Option.map_some', Option.some_inj, decide_eq_true_eq,
      decide_eq_false_iff_not] at hmem hng hrl
    have heq := hcl dupInit 15 dupSt cur rest hval hstep hpop hng hmem
    rw [heq] at hol
    simp only [openLenOf] at hol
    omega

/-- C3 (amended): a popped node whose grid is already explored is NOT
discarded: the loop body expands it anyway, leaving the explored set
unchanged but pushing a new frontier node for every neighbor not in the
explored set. -/
theorem claimC3 :
    ∀ st cur rest, heappop nodeKey st.openl = some (cur, rest) →
      cur.state ≠ goal_state → cur.state ∈ st.closed →
      ∃ st2, aStarStep st = StepOut.next st2 ∧ st2.closed = st.closed ∧
        st2.openl.length = rest.length +
          (get_neighbors cur.state).countP
            (fun ns => decide (ns ∉ st.closed)) := by
  intro st cur rest hpop hng hmem
  have hins : insertG cur.state st.closed = st.closed := insertG_mem hmem
  rw [aStarStep_eq_pop st cur rest hpop, if_neg hng]
  refine ⟨_, rfl, ?_, ?_⟩
  · exact hins
  · simp only [hins]
    exact expand_length _ _

/-- C3 (witness): the amended claim at a one-node frontier whose root grid
is already explored; both neighbors of the grid get pushed. -/
theorem claimC3_witness :
    ∃ st2, aStarStep ⟨[PuzzleNode.root stdGoal 0 0], [stdGoal]⟩
        = StepOut.next st2 ∧ st2.closed = [stdGoal] ∧
      st2.openl.length = 2 := by
  obtain ⟨st2, h1, h2, h3⟩ := claimC3 ⟨[PuzzleNode.root stdGoal 0 0], [stdGoal]⟩
    (PuzzleNode.root stdGoal 0 0) [] rfl (by decide) (by decide)
  refine ⟨st2, h1, h2, ?_⟩
  rw [h3]
  decide

/-! ## C9: termination -/

/-- Regroup a flat 9-list into a 3x3 grid. -/
def chunk3 (l : List Nat) : Grid :=
  [l.take 3, (l.drop 3).take 3, (l.drop 6).take 3]

/-- All rearrangements of the initial grid's tiles, as grids; the search
can only ever visit grids in this finite list. -/
def permGrids (init : Grid) : List Grid :=
  (init.flatten.permutations).map chunk3

/-- Regrouping the flattening of a shaped grid gives the grid back. -/
theorem chunk3_flatten {g : Grid} (h : Shaped g) : chunk3 g.flatten = g := by
  obtain ⟨a, b, c, d, e, f, p, q, r, rfl⟩ := shaped_explicit h
  rfl

/-- Invariant for termination: explored grids are distinct, and every grid
the loop handles is a 3x3 rearrangement of the initial grid's tiles. -/
def TermInv (init : Grid) (st : SState) : Prop :=
  st.closed.Nodup ∧
  (∀ s ∈ st.closed, Shaped s ∧ s.flatten.Perm init.flatten) ∧
  (∀ n ∈ st.openl, Shaped n.state ∧ n.state.flatten.Perm init.flatten)

/-- A grid with no blank has no neighbors. -/
theorem neighbors_gbp_none {s : Grid} (h : get_blank_position s = none) :
    get_neighbors s = [] := by
  unfold get_neighbors
  rw [h]

/-- Membership in `insertG`. -/
theorem mem_insertG {x s : Grid} {l : List Grid} (h : x ∈ insertG s l) :
    x = s ∨ x ∈ l := by
  unfold insertG at h
  split at h
  · exact Or.inr h
  · rcases List.mem_cons.mp h with h | h
    · exact Or.inl h
    · exact Or.inr h

/-- The explored set never exceeds the number of tile rearrangements. -/
theorem closed_card_le {init : Grid} {st : SState} (h : TermInv init st) :
    st.closed.length ≤ (permGrids init).toFinset.card := by
  have hmem : ∀ s ∈ st.closed, s ∈ permGrids init := by
    intro s hs
    obtain ⟨hsh, hperm⟩ := h.2.1 s hs
    unfold permGrids
    rw [List.mem_map]
    exact ⟨s.flatten, List.mem_permutations.mpr hperm, chunk3_flatten hsh⟩
  calc st.closed.length = st.closed.toFinset.card :=
        (List.toFinset_card_of_nodup h.1).symm
    _ ≤ (permGrids init).toFinset.card := Finset.card_le_card (by
        intro s hs
        rw [List.mem_toFinset] at hs ⊢
        exact hmem s hs)

/-- The push fold does not change the number of open nodes whose grid is
in `closed2`: every pushed node's grid is outside `closed2`. -/
theorem expand_countP {cur : PuzzleNode} {closed2 : List Grid} :
    ∀ (l : List Grid) (o : List PuzzleNode),
      (l.foldl
        (fun o2 ns =>
          if ns ∈ closed2 then o2
          else heappush nodeKey o2
            (PuzzleNode.child ns cur (cur.g + 1) (manhattan_distance ns)))
        o).countP (fun n => decide (n.state ∈ closed2))
      = o.countP (fun n => decide (n.state ∈ closed2)) := by
  intro l
  induction l with
  | nil =>
    intro o
    rfl
  | cons x xs ih =>
    intro o
    simp only [List.foldl_cons]
    by_cases hx : x ∈ closed2
    · rw [if_pos hx, ih]
    · rw [if_neg hx, ih]
      rw [(heappush_perm nodeKey o
        (PuzzleNode.child x cur (cur.g + 1) (manhattan_distance x))).countP_eq]
      simp [List.countP_cons, PuzzleNode.state, hx]

/-- One loop step either finishes the run or moves to a state where the
termination measure drops: the explored set grows (bounded by the number
of rearrangements), or it is unchanged and the count of open nodes with
explored grids drops by one. -/
theorem termStep (init : Grid) (st : SState) (hinv : TermInv init st) :
    (∃ fuel r, solveLoop fuel st = some r) ∨
    (∃ st2, aStarStep st = StepOut.next st2 ∧ TermInv init st2 ∧
      ((st2.closed.length = st.closed.length + 1 ∧
        st.closed.length < (permGrids init).toFinset.card) ∨
       (st2.closed = st.closed ∧
        st2.openl.countP (fun n => decide (n.state ∈ st2.closed)) + 1 =
          st.openl.countP (fun n => decide (n.state ∈ st.closed))))) := by
  rcases hpop : heappop nodeKey st.openl with _ | ⟨cur, rest⟩
  · left
    refine ⟨1, none, ?_⟩
    rw [solveLoop, aStarStep_eq_empty st hpop]
  · by_cases hgoal : cur.state = goal_state
    · left
      refine ⟨1, some (pathOf cur), ?_⟩
      rw [solveLoop, aStarStep_eq_pop st cur rest hpop, if_pos hgoal]
    · right
      have hstep : aStarStep st = StepOut.next
          ⟨(get_neighbors cur.state).foldl
            (fun o ns =>
              if ns ∈ insertG cur.state st.closed then o
              else heappush nodeKey o
                (PuzzleNode.child ns cur (cur.g + 1) (manhattan_distance ns)))
            rest, insertG cur.state st.closed⟩ := by
        rw [aStarStep_eq_pop st cur rest hpop, if_neg hgoal]
      have hcurmem : cur ∈ st.openl := (heappop_mem _ _ _ _ hpop).1
      have hrestmem : ∀ y ∈ rest, y ∈ st.openl := (heappop_mem _ _ _ _ hpop).2
      obtain ⟨hcsh, hcperm⟩ := hinv.2.2 cur hcurmem
      have hinv2 : TermInv init
          ⟨(get_neighbors cur.state).foldl
            (fun o ns =>
              if ns ∈ insertG cur.state st.closed then o
              else heappush nodeKey o
                (PuzzleNode.child ns cur (cur.g + 1) (manhattan_distance ns)))
            rest, insertG cur.state st.closed⟩ := by
      -- closed: distinct and tile-rearrangements; open: tile-rearrangements
        refine ⟨?_, ?_, ?_⟩
        · by_cases hmem : cur.state ∈ st.closed
          · rw [insertG_mem hmem]
            exact hinv.1
          · unfold insertG
            rw [if_neg hmem]
            exact List.nodup_cons.mpr ⟨hmem, hinv.1⟩
        · intro s hs
          rcases mem_insertG hs with rfl | hs2
          · exact ⟨hcsh, hcperm⟩
          · exact hinv.2.1 s hs2
        · intro n hn
          rcases expand_mem _ _ hn with h2 | ⟨ns, hns, _, rfl⟩
          · exact hinv.2.2 n (hrestmem n h2)
          · rcases hgb : get_blank_position cur.state with _ | ⟨i, j⟩
            · rw [neighbors_gbp_none hgb] at hns
              exact absurd hns (by simp)
            · refine ⟨neighbors_shaped hcsh hgb hns, ?_⟩
              exact (neighbors_perm_flatten hcsh hgb hns).trans hcperm
      refine ⟨_, hstep, hinv2, ?_⟩
      by_cases hmem : cur.state ∈ st.closed
      · right
        have hins : insertG cur.state st.closed = st.closed := insertG_mem hmem
        constructor
        · exact hins
        · simp only [hins]
          rw [expand_countP]
          have hp := (heappop_perm nodeKey st.openl cur rest hpop).countP_eq
            (fun n => decide (n.state ∈ st.closed))
          rw [← hp]
          simp [List.countP_cons, hmem]
      · left
        constructor
        · unfold insertG
          rw [if_neg hmem]
          simp
        · have := closed_card_le hinv2
          simp only at this
          unfold insertG at this
          rw [if_neg hmem] at this
          simp at this
          omega

/-- The loop reaches a final answer from any state satisfying the
termination invariant: nested induction on the measure. -/
theorem solveLoop_term (init : Grid) :
    ∀ a b st, TermInv init st →
      (permGrids init).toFinset.card - st.closed.length ≤ a →
      st.openl.countP (fun n => decide (n.state ∈ st.closed)) ≤ b →
      ∃ fuel r, solveLoop fuel st = some r := by
  intro a
  induction a with
  | zero =>
    intro b
    induction b with
    | zero =>
      intro st hinv ha hb
      rcases termStep init st hinv with hdone | ⟨st2, hstep, hinv2, hm⟩
      · exact hdone
      · rcases hm with ⟨hlen, hlt⟩ | ⟨hcl, hcount⟩
        · omega
        · omega
    | succ b ihb =>
      intro st hinv ha hb
      rcases termStep init st hinv with hdone | ⟨st2, hstep, hinv2, hm⟩
      · exact hdone
      · rcases hm with ⟨hlen, hlt⟩ | ⟨hcl, hcount⟩
        · omega
        · obtain ⟨fuel, r, hr⟩ := ihb st2 hinv2 (by rw [hcl]; omega) (by omega)
          refine ⟨fuel + 1, r, ?_⟩
          rw [solveLoop, hstep]
          exact hr
  | succ a iha =>
    intro b
    induction b with
    | zero =>
      intro st hinv ha hb
      rcases termStep init st hinv with hdone | ⟨st2, hstep, hinv2, hm⟩
      · exact hdone
      · rcases hm with ⟨hlen, hlt⟩ | ⟨hcl, hcount⟩
        · obtain ⟨fuel, r, hr⟩ := iha
            (st2.openl.countP (fun n => decide (n.state ∈ st2.closed)))
            st2 hinv2 (by omega) (le_refl _)
          refine ⟨fuel + 1, r, ?_⟩
          rw [solveLoop, hstep]
          exact hr
        · omega
    | succ b ihb =>
      intro st hinv ha hb
      rcases termStep init st hinv with hdone | ⟨st2, hstep, hinv2, hm⟩
      · exact hdone
      · rcases hm with ⟨hlen, hlt⟩ | ⟨hcl, hcount⟩
        · obtain ⟨fuel, r, hr⟩ := iha
            (st2.openl.countP (fun n => decide (n.state ∈ st2.closed)))
            st2 hinv2 (by omega) (le_refl _)
          refine ⟨fuel + 1, r, ?_⟩
          rw [solveLoop, hstep]
          exact hr
        · obtain ⟨fuel, r, hr⟩ := ihb st2 hinv2 (by rw [hcl]; omega) (by omega)
          refine ⟨fuel + 1, r, ?_⟩
          rw [solveLoop, hstep]
          exact hr

/-- The search terminates on every valid grid, and an exhausted frontier
is the only way to answer an unsolvable instance. -/
theorem solve_terminates (init : Grid) (hv : Valid init) :
    ∃ fuel r, solve_puzzle init fuel = some r ∧
      (¬ Solvable init → r = none) := by
  have hinv : TermInv init (startState init) := by
    refine ⟨by simp [startState], by simp [startState], ?_⟩
    intro n hn
    simp only [startState, List.mem_singleton] at hn
    subst hn
    exact ⟨hv.1, List.Perm.refl _⟩
  obtain ⟨fuel, r, hr⟩ := solveLoop_term init
    ((permGrids init).toFinset.card - (startState init).closed.length)
    ((startState init).openl.countP
      (fun n => decide (n.state ∈ (startState init).closed)))
    (startState init) hinv (le_refl _) (le_refl _)
  refine ⟨fuel, r, hr, ?_⟩
  intro hns
  rcases r with _ | p
  · rfl
  · exfalso
    have hopen : OpenInv init (startState init) := by
      intro n hn
      simp only [startState, List.mem_singleton] at hn
      subst hn
      exact ⟨rfl, rfl⟩
    obtain ⟨n, hok, hgoal, hp⟩ := solveLoop_found fuel _ p hopen hr
    exact hns ⟨pathOf n, pathOf_solpath hv hok hgoal⟩

/-- C9: on every valid input grid, including unsolvable ones, the search
terminates: with enough fuel the loop reaches a definite outcome (the
reachable grids form a finite set, bounded by the rearrangements of the
initial tiles), and when the instance is unsolvable the outcome is the
explicit no-solution result `none` rather than an endless loop. -/
theorem claimC9 :
    ∀ init, Valid init →
      ∃ fuel r, solve_puzzle init fuel = some r ∧
        (¬ Solvable init → r = none) := by
  intro init hv
  exact solve_terminates init hv

/-- C9 (witness): the already-solved instance terminates. -/
theorem claimC9_witness :
    ∃ fuel r, solve_puzzle goal_state fuel = some r ∧
      (¬ Solvable goal_state → r = none) :=
  claimC9 goal_state (by decide)

/-! ## C2: optimality of the returned path -/

/-- A legal move out of a valid grid lands on a valid grid. -/
theorem legalMove_valid {a b : Grid} (hv : Valid a) (h : legalMove a b) :
    Valid b := by
  obtain ⟨i, j, i2, j2, hgbp, hi2, hj2, hadj, rfl⟩ := h
  exact neighbors_valid hv ((mem_neighbors_iff_legalMove hgbp).mpr
    ⟨i, j, i2, j2, hgbp, hi2, hj2, hadj, rfl⟩)

/-- One legal move changes the heuristic by at most one. -/
theorem legalMove_md {a b : Grid} (hs : Shaped a) (h : legalMove a b) :
    manhattan_distance b ≤ manhattan_distance a + 1 ∧
    manhattan_distance a ≤ manhattan_distance b + 1 := by
  obtain ⟨i, j, i2, j2, hgbp, hi2, hj2, hadj, rfl⟩ := h
  exact md_neighbor_lipschitz hs hgbp
    ((mem_neighbors_iff_legalMove hgbp).mpr
      ⟨i, j, i2, j2, hgbp, hi2, hj2, hadj, rfl⟩)

/-- Validity propagates along a chain of legal moves. -/
theorem chain_valid : ∀ (q : List Grid) (a : Grid), Valid a →
    q.head? = some a → q.Chain' legalMove → ∀ u ∈ q, Valid u := by
  intro q
  induction q with
  | nil =>
    intro a _ hh
    simp at hh
  | cons x xs ih =>
    intro a hv hh hc u hu
    have hx : x = a := by simpa using hh
    subst hx
    rcases List.mem_cons.mp hu with rfl | hu2
    · exact hv
    · cases xs with
      | nil => simp at hu2
      | cons y ys =>
        have hmv : legalMove x y := (List.chain'_cons.mp hc).1
        have hcy : (y :: ys).Chain' legalMove := (List.chain'_cons.mp hc).2
        exact ih y (legalMove_valid hv hmv) rfl hcy u hu2

/-- The last grid of a solution path from a valid grid is valid. -/
theorem solpath_valid_last {a t : Grid} {q : List Grid} (hv : Valid a)
    (h : SolPath a t q) : Valid t := by
  have hall := chain_valid q a hv h.1 h.2.2
  have hne : q ≠ [] := by
    intro h0
    rw [h0] at h
    exact absurd h.1 (by simp)
  have hl := h.2.1
  rw [List.getLast?_eq_getLast q hne] at hl
  rw [(Option.some_inj.mp hl).symm]
  exact hall _ (List.getLast_mem hne)

/-- A one-grid solution path starts and ends at that grid. -/
theorem solpath_single {a t x : Grid} (h : SolPath a t [x]) :
    a = x ∧ t = x := by
  obtain ⟨hh, hl, _⟩ := h
  have h1 : x = a := by simpa using hh
  have h2 : x = t := by simpa using hl
  exact ⟨h1.symm, h2.symm⟩

/-- Peeling the final move off a solution path of two or more grids. -/
theorem solpath_concat {a t : Grid} {p : List Grid} (h : SolPath a t p)
    (hlen : 2 ≤ p.length) :
    ∃ q t2, SolPath a t2 q ∧ legalMove t2 t ∧ p = q ++ [t] ∧
      q.length + 1 = p.length := by
  obtain ⟨hh, hl, hc⟩ := h
  rcases List.eq_nil_or_concat p with rfl | ⟨q, x, rfl⟩
  · simp at hh
  · rw [List.concat_eq_append] at hlen hh hl hc ⊢
    have hx : x = t := by
      rw [List.getLast?_concat] at hl
      exact Option.some_inj.mp hl
    subst hx
    have hq : q ≠ [] := by
      intro h0
      subst h0
      simp at hlen
    refine ⟨q, q.getLast hq, ⟨?_, ?_, ?_⟩, ?_, rfl, by simp⟩
    · rw [List.head?_append_of_ne_nil _ hq] at hh
      exact hh
    · exact List.getLast?_eq_getLast q hq
    · exact (List.chain'_append.mp hc).1
    · exact (List.chain'_append.mp hc).2.2 (q.getLast hq)
        (Option.mem_def.mpr (List.getLast?_eq_getLast q hq)) x
        (Option.mem_def.mpr rfl)

/-- A grid just inserted is in the explored set. -/
theorem insertG_self {s : Grid} {l : List Grid} : s ∈ insertG s l := by
  unfold insertG
  split
  · assumption
  · exact List.mem_cons_self s l

/-- Inserting preserves prior members of the explored set. -/
theorem insertG_superset {x s : Grid} {l : List Grid} (h : x ∈ l) :
    x ∈ insertG s l := by
  unfold insertG
  split
  · exact h
  · exact List.mem_cons_of_mem s h

/-- The push fold keeps every node already in the open list. -/
theorem expand_mem_of {cur : PuzzleNode} {closed2 : List Grid} :
    ∀ (l : List Grid) (o : List PuzzleNode) (y : PuzzleNode), y ∈ o →
      y ∈ l.foldl
        (fun o2 ns =>
          if ns ∈ closed2 then o2
          else heappush nodeKey o2
            (PuzzleNode.child ns cur (cur.g + 1) (manhattan_distance ns)))
        o := by
  intro l
  induction l with
  | nil =>
    intro o y hy
    exact hy
  | cons x xs ih =>
    intro o y hy
    simp only [List.foldl_cons]
    by_cases hx : x ∈ closed2
    · rw [if_pos hx]
      exact ih o y hy
    · rw [if_neg hx]
      exact ih _ y ((mem_heappush _ _ _ _).mpr (Or.inr hy))

/-- The push fold contains a node for every non-explored neighbor. -/
theorem expand_mem_push {cur : PuzzleNode} {closed2 : List Grid} :
    ∀ (l : List Grid) (o : List PuzzleNode) (ns : Grid), ns ∈ l →
      ns ∉ closed2 →
      PuzzleNode.child ns cur (cur.g + 1) (manhattan_distance ns) ∈ l.foldl
        (fun o2 ns2 =>
          if ns2 ∈ closed2 then o2
          else heappush nodeKey o2
            (PuzzleNode.child ns2 cur (cur.g + 1) (manhattan_distance ns2)))
        o := by
  intro l
  induction l with
  | nil =>
    intro o ns hns
    simp at hns
  | cons x xs ih =>
    intro o ns hns hns2
    simp only [List.foldl_cons]
    rcases List.mem_cons.mp hns with rfl | hns3
    · rw [if_neg hns2]
      exact expand_mem_of xs _ _ ((mem_heappush _ _ _ _).mpr (Or.inl rfl))
    · by_cases hx : x ∈ closed2
      · rw [if_pos hx]
        exact ih o ns hns3 hns2
      · rw [if_neg hx]
        exact ih _ ns hns3 hns2

/-- Relaxation invariant: every edge out of an explored grid has been
relaxed -- its target is explored too, or the frontier holds an entry for
it whose path cost is at most one more than the cost of any legal path to
the explored source. -/
def relaxInv (init : Grid) (st : SState) : Prop :=
  ∀ t ∈ st.closed, ∀ u, u ∈ get_neighbors t → u ∈ st.closed ∨
    ∃ n ∈ st.openl, n.state = u ∧ ∀ q, SolPath init t q → n.g ≤ q.length

/-- Full invariant for the optimality proof: well-formed frontier nodes
with correct stored heuristic, a genuine binary heap, relaxed edges, the
initial grid covered, and the goal never explored. -/
def C2Inv (init : Grid) (st : SState) : Prop :=
  OpenInv init st ∧
  (∀ n ∈ st.openl, n.h = manhattan_distance n.state) ∧
  heapInv nodeKey st.openl ∧
  relaxInv init st ∧
  (init ∈ st.closed ∨ ∃ n ∈ st.openl, n.state = init ∧ n.g = 0) ∧
  goal_state ∉ st.closed

/-- Cover lemma: a legal path ending outside the explored set meets the
frontier at a node whose f-value is bounded by the path's cost plus the
endpoint's heuristic. -/
theorem cover {init : Grid} {st : SState} (hvi : Valid init)
    (hrelax : relaxInv init st)
    (hinit : init ∈ st.closed ∨ ∃ n ∈ st.openl, n.state = init ∧ n.g = 0) :
    ∀ m q t, q.length ≤ m → SolPath init t q → t ∉ st.closed →
      ∃ n ∈ st.openl, n.g + manhattan_distance n.state ≤
        (q.length - 1) + manhattan_distance t := by
  intro m
  induction m with
  | zero =>
    intro q t hm hq _
    rcases q with _ | ⟨x, xs⟩
    · exact absurd hq.1 (by simp)
    · simp at hm
  | succ m ih =>
    intro q t hm hq ht
    by_cases hone : q.length ≤ 1
    · rcases q with _ | ⟨x, xs⟩
      · exact absurd hq.1 (by simp)
      · rcases xs with _ | ⟨y, ys⟩
        · obtain ⟨h1, h2⟩ := solpath_single hq
          rcases hinit with hcl | ⟨n, hn, hns, hng⟩
          · refine absurd ?_ ht
            rw [h2, ← h1]
            exact hcl
          · refine ⟨n, hn, ?_⟩
            rw [hns, hng, ← h1, h2, ← h1]
            simp
        · simp at hone
    · obtain ⟨q2, t2, hq2, hmv, hqe, hql⟩ := solpath_concat hq (by omega)
      have hvt2 : Valid t2 := solpath_valid_last hvi hq2
      by_cases hc : t2 ∈ st.closed
      · have hu : t ∈ get_neighbors t2 := by
          obtain ⟨i, j, i2, j2, hgbp, hi2, hj2, hadj, heq⟩ := hmv
          exact (mem_neighbors_iff_legalMove hgbp).mpr
            ⟨i, j, i2, j2, hgbp, hi2, hj2, hadj, heq⟩
        rcases hrelax t2 hc t hu with htc | ⟨n, hn, hns, hg⟩
        · exact absurd htc ht
        · refine ⟨n, hn, ?_⟩
          have hgq := hg q2 hq2
          rw [hns]
          omega
      · obtain ⟨n, hn, hb⟩ := ih q2 t2 (by omega) hq2 hc
        have hmd := (legalMove_md hvt2.1 hmv).2
        have hq2ne : 1 ≤ q2.length := by
          rcases q2 with _ | _
          · exact absurd hq2.1 (by simp)
          · simp
        exact ⟨n, hn, by omega⟩

/-- A node popped before its grid is explored carries an optimal cost:
no legal path to that grid is shorter than its reconstructed path. -/
theorem popped_g_le {init : Grid} {st : SState} (hvi : Valid init)
    (hh2 : ∀ n ∈ st.openl, n.h = manhattan_distance n.state)
    (hheap : heapInv nodeKey st.openl)
    (hrelax : relaxInv init st)
    (hinit : init ∈ st.closed ∨ ∃ n ∈ st.openl, n.state = init ∧ n.g = 0)
    {cur : PuzzleNode} {rest : List PuzzleNode}
    (hpop : heappop nodeKey st.openl = some (cur, rest))
    (hnc : cur.state ∉ st.closed) :
    ∀ q, SolPath init cur.state q → cur.g + 1 ≤ q.length := by
  intro q hq
  obtain ⟨n, hn, hle⟩ := cover hvi hrelax hinit q.length q cur.state
    (le_refl _) hq hnc
  have hmin := heappop_min hheap cur rest hpop n hn
  have hch : cur.h = manhattan_distance cur.state :=
    hh2 cur (heappop_mem _ _ _ _ hpop).1
  have hnh : n.h = manhattan_distance n.state := hh2 n hn
  have hqne : 1 ≤ q.length := by
    rcases q with _ | _
    · exact absurd hq.1 (by simp)
    · simp
  unfold nodeKey at hmin
  rw [hch, hnh] at hmin
  omega

/-- The loop body preserves the optimality invariant. -/
theorem aStarStep_C2Inv {init : Grid} {st st2 : SState} (hvi : Valid init)
    (hC2 : C2Inv init st) (hstep : aStarStep st = StepOut.next st2) :
    C2Inv init st2 := by
  obtain ⟨hopen, hh, hheap, hrelax, hinit, hgcl⟩ := hC2
  obtain ⟨cur, rest, hpop, hgoal, hcl, hop⟩ := aStarStep_next hstep
  have hmemop := heappop_mem nodeKey st.openl cur rest hpop
  have hperm := heappop_perm nodeKey st.openl cur rest hpop
  refine ⟨aStarStep_openInv hopen hstep, ?_, ?_, ?_, ?_, ?_⟩
  · intro n hn
    rw [hop] at hn
    rcases expand_mem _ _ hn with h2 | ⟨ns, _, _, rfl⟩
    · exact hh n (hmemop.2 n h2)
    · rfl
  · rw [hop]
    exact expand_heapInv _ _ (heappop_heapInv hheap cur rest hpop)
  · intro t ht u hu
    by_cases hu2 : u ∈ st2.closed
    · exact Or.inl hu2
    · right
      have hucur : u ≠ cur.state := by
        intro h0
        apply hu2
        rw [hcl, h0]
        exact insertG_self
      rw [hcl] at ht
      rcases mem_insertG ht with rfl | ht2
      · by_cases hcc : cur.state ∈ st.closed
        · rcases hrelax cur.state hcc u hu with hucl | ⟨n, hn, hns, hg⟩
          · exact absurd (by rw [hcl]; exact insertG_superset hucl) hu2
          · rcases List.mem_cons.mp (hperm.mem_iff.mpr hn) with rfl | hn3
            · exact absurd hns.symm hucur
            · refine ⟨n, ?_, hns, hg⟩
              rw [hop]
              exact expand_mem_of _ _ n hn3
        · refine ⟨PuzzleNode.child u cur (cur.g + 1) (manhattan_distance u),
            ?_, rfl, ?_⟩
          · rw [hop]
            apply expand_mem_push _ _ u hu
            rw [← hcl]
            exact hu2
          · intro q hq
            exact popped_g_le hvi hh hheap hrelax hinit hpop hcc q hq
      · rcases hrelax t ht2 u hu with hucl | ⟨n, hn, hns, hg⟩
        · exact absurd (by rw [hcl]; exact insertG_superset hucl) hu2
        · rcases List.mem_cons.mp (hperm.mem_iff.mpr hn) with rfl | hn3
          · exact absurd hns.symm hucur
          · refine ⟨n, ?_, hns, hg⟩
            rw [hop]
            exact expand_mem_of _ _ n hn3
  · rcases hinit with hcl2 | ⟨n, hn, hns, hng⟩
    · left
      rw [hcl]
      exact insertG_superset hcl2
    · rcases List.mem_cons.mp (hperm.mem_iff.mpr hn) with rfl | hn3
      · left
        rw [hcl, ← hns]
        exact insertG_self
      · right
        refine ⟨n, ?_, hns, hng⟩
        rw [hop]
        exact expand_mem_of _ _ n hn3
  · rw [hcl]
    intro hmem
    rcases mem_insertG hmem with h0 | h0
    · exact hgoal h0.symm
    · exact hgcl h0

/-- The starting state satisfies the optimality invariant. -/
theorem startState_C2Inv {init : Grid} : C2Inv init (startState init) := by
  refine ⟨?_, ?_, ?_, ?_, ?_, ?_⟩
  · intro n hn
    simp only [startState, List.mem_singleton] at hn
    subst hn
    exact ⟨rfl, rfl⟩
  · intro n hn
    simp only [startState, List.mem_singleton] at hn
    subst hn
    rfl
  · intro i j hj hc
    simp only [startState, List.length_singleton] at hj
    rcases hc with hc | hc <;> omega
  · intro t ht u hu
    simp [startState] at ht
  · right
    refine ⟨PuzzleNode.root init 0 (manhattan_distance init), ?_, rfl, rfl⟩
    simp [startState]
  · simp [startState]

/-- Any successful outcome of the loop, from a state satisfying the
invariant, is a path no longer than any legal path to the goal. -/
theorem solveLoop_opt {init : Grid} (hvi : Valid init) :
    ∀ (fuel : Nat) (st : SState) (p : List Grid), C2Inv init st →
      solveLoop fuel st = some (some p) →
      ∀ q, SolPath init goal_state q → p.length ≤ q.length := by
  intro fuel
  induction fuel with
  | zero =>
    intro st p _ h
    simp [solveLoop] at h
  | succ fuel ih =>
    intro st p hC2 h q hq
    rw [solveLoop] at h
    rcases hstep : aStarStep st with _ | p2 | st2
    · rw [hstep] at h
      simp at h
    · rw [hstep] at h
      simp only [Option.some_inj] at h
      obtain ⟨cur, rest, hpop, hgoal, hp2⟩ := aStarStep_found hstep
      have hnc : cur.state ∉ st.closed := by
        rw [hgoal]
        exact hC2.2.2.2.2.2
      have hle := popped_g_le hvi hC2.2.1 hC2.2.2.1 hC2.2.2.2.1
        hC2.2.2.2.2.1 hpop hnc q (by rw [hgoal]; exact hq)
      have hlen : p.length = cur.g + 1 := by
        rw [← h, hp2]
        exact pathOf_length (hC2.1 cur (heappop_mem _ _ _ _ hpop).1)
      omega
    · rw [hstep] at h
      exact ih st2 p (aStarStep_C2Inv hvi hC2 hstep) h q hq

/-- If the loop exhausts the frontier from an invariant state, the
instance is unsolvable: a solution path would place a node on the (empty)
frontier by the cover lemma. -/
theorem solveLoop_complete {init : Grid} (hvi : Valid init) :
    ∀ (fuel : Nat) (st : SState), C2Inv init st →
      solveLoop fuel st = some none → ¬ Solvable init := by
  intro fuel
  induction fuel with
  | zero =>
    intro st _ h
    simp [solveLoop] at h
  | succ fuel ih =>
    intro st hC2 h
    rw [solveLoop] at h
    rcases hstep : aStarStep st with _ | p2 | st2
    · intro hsol
      obtain ⟨q, hq⟩ := hsol
      have hempty : st.openl = [] := by
        rcases hpop : heappop nodeKey st.openl with _ | ⟨cur, rest⟩
        · exact (heappop_none nodeKey st.openl).mp hpop
        · rw [aStarStep_eq_pop st cur rest hpop] at hstep
          by_cases hg : cur.state = goal_state
          · rw [if_pos hg] at hstep
            simp at hstep
          · rw [if_neg hg] at hstep
            simp at hstep
      obtain ⟨n, hn, _⟩ := cover hvi hC2.2.2.2.1 hC2.2.2.2.2.1 q.length q
        goal_state (le_refl _) hq hC2.2.2.2.2.2
      rw [hempty] at hn
      simp at hn
    · rw [hstep] at h
      simp at h
    · rw [hstep] at h
      exact ih st2 (aStarStep_C2Inv hvi hC2 hstep) h

/-- C2: the search is optimal despite its heuristic targeting a different
layout than `goal_state`: the heuristic changes by at most one per move
(it is 1-Lipschitz along edges), which makes the first goal pop carry a
minimal path cost. Whenever `solve_puzzle` returns a sequence on a valid
initial grid, that sequence is a legal solution path and no legal path
from the initial grid to `goal_state` is shorter; and on every solvable
valid initial grid some fuel makes `solve_puzzle` return a sequence. -/
theorem claimC2 :
    (∀ (init : Grid) (fuel : Nat) (p : List Grid), Valid init →
      solve_puzzle init fuel = some (some p) →
      SolPath init goal_state p ∧
        ∀ q, SolPath init goal_state q → p.length ≤ q.length) ∧
    (∀ init : Grid, Valid init → Solvable init →
      ∃ fuel p, solve_puzzle init fuel = some (some p)) := by
  constructor
  · intro init fuel p hv hr
    constructor
    · have hopen : OpenInv init (startState init) := startState_C2Inv.1
      obtain ⟨n, hok, hgoal, hp⟩ := solveLoop_found fuel _ p hopen hr
      rw [hp]
      exact pathOf_solpath hv hok hgoal
    · exact solveLoop_opt hv fuel (startState init) p startState_C2Inv hr
  · intro init hv hsol
    obtain ⟨fuel, r, hr, hns⟩ := solve_terminates init hv
    rcases r with _ | p
    · exact absurd hsol (solveLoop_complete hv fuel (startState init)
        startState_C2Inv hr)
    · exact ⟨fuel, p, hr⟩

/-- C2 (witness): the already-solved instance returns the one-grid path,
which is no longer than itself as a solution path. -/
theorem claimC2_witness :
    (SolPath goal_state goal_state [goal_state] ∧
      ([goal_state] : List Grid).length ≤ ([goal_state] : List Grid).length) ∧
    ∃ fuel p, solve_puzzle goal_state fuel = some (some p) := by
  have h1 := claimC2.1 goal_state 1 [goal_state] (by decide) (by decide)
  refine ⟨⟨h1.1, h1.2 [goal_state] h1.1⟩, ?_⟩
  exact claimC2.2 goal_state (by decide)
    ⟨[goal_state], rfl, rfl, List.chain'_singleton goal_state⟩
